import Mathlib

/-!
# Verification of the `field_of_vision` crate (ambregris repository)

Shallow embedding of `src/field_of_vision/src/lib.rs` in Lean 4.

Machine integers (`i32`) are modelled by `Int`; `Vec<bool>` buffers are
modelled by total functions `Int → Bool` updated through `setIdx` (all
indices actually read or written by the algorithm are in range, and the
few places where the Rust code could panic on an index are modelled
explicitly where a claim depends on them).  Panics are modelled by
`Except FovError` / `Option` results; the `FovError` payload records the
values the Rust panic message interpolates.
-/

namespace FieldOfVision

/-- Point update of a flat boolean buffer, modelling `buf[i] = b`. -/
def setIdx (v : Int → Bool) (i : Int) (b : Bool) : Int → Bool :=
  fun j => if j = i then b else v j

/-- The integer interval `[a, b)`, modelling Rust's `a..b` range. -/
def intRange (a b : Int) : List Int :=
  (List.range (b - a).toNat).map (fun (i : Nat) => a + (i : Int))

/-- Modelled from the spec: the line rasterizer lives in `mod bresenham`
(`src/field_of_vision/src/bresenham.rs`), which is not present under
`src/`.  Spec §4.1: an integer digital-line algorithm per Bresenham's
error accumulation, producing the lattice points from origin to
destination inclusive, 8-connected, deterministic, ending exactly at the
destination.  This is the classic all-octant Bresenham loop, written with
fuel (the coordinate steps are clamped at the destination coordinate,
which the classic error dynamics never exceed, so the clamp does not
change the produced line). -/
def bresenhamGo (x1 y1 dx dy sx sy : Int) :
    Nat → Int → Int → Int → List (Int × Int)
  | 0, _, _, _ => []
  | Nat.succ fuel, x, y, err =>
    (x, y) ::
      (if x = x1 ∧ y = y1 then []
       else
        let e2 := 2 * err
        let x' := if e2 ≥ dy ∧ x ≠ x1 then x + sx else x
        let err1 := if e2 ≥ dy ∧ x ≠ x1 then err + dy else err
        let y' := if e2 ≤ dx ∧ y ≠ y1 then y + sy else y
        let err2 := if e2 ≤ dx ∧ y ≠ y1 then err1 + dx else err1
        bresenhamGo x1 y1 dx dy sx sy fuel x' y' err2)

/-- Modelled from the spec: `Bresenham::new(origin, destination)` as an
eager list of the points of the digital line (the Rust iterator is lazy
but finite; callers only ever traverse it once). -/
def bresenham (origin destination : Int × Int) : List (Int × Int) :=
  let x0 := origin.1
  let y0 := origin.2
  let x1 := destination.1
  let y1 := destination.2
  let dx : Int := (x1 - x0).natAbs
  let dy : Int := -((y1 - y0).natAbs : Int)
  let sx : Int := if x0 < x1 then 1 else -1
  let sy : Int := if y0 < y1 then 1 else -1
  bresenhamGo x1 y1 dx dy sx sy ((x1 - x0).natAbs + (y1 - y0).natAbs + 1) x0 y0 (dx + dy)

/-- Panic payloads.  The Rust code panics with a formatted message; the
constructor arguments are exactly the values interpolated into it:
`badDimensions` cites the offending `(width, height)`, `outOfBounds`
cites the valid range `(width, height)` and the offending `(x, y)`. -/
inductive FovError where
  | badDimensions (width height : Int)
  | outOfBounds (width height x y : Int)
  | capacityOverflow (size : Int)
deriving DecidableEq, Repr

/-- Core of both `FovMap::cast_ray_and_mark_visible` (lib.rs:131) and the
free `cast_ray` (lib.rs:392).  Walks the ray points in order; marks the
cell when `distance <= radius_square || radius_square == 0`; stops right
after the first non-transparent cell.  `index` maps a point to its flat
buffer index, `dist` gives the squared distance from the ray origin, and
`transp` is the transparency test for a point (the two Rust functions
differ only in these three parameters). -/
def rayWalk (index : Int × Int → Int) (dist : Int × Int → Int)
    (transp : Int × Int → Bool) (radius_square : Int) :
    (Int → Bool) → List (Int × Int) → (Int → Bool)
  | v, [] => v
  | v, p :: rest =>
    let v' := if dist p ≤ radius_square ∨ radius_square = 0
      then setIdx v (index p) true else v
    if ¬ transp p then v'
    else rayWalk index dist transp radius_square v' rest

/-- The prefix of a ray that `rayWalk` actually processes: every cell up to
and including the first non-transparent one. -/
def walkedCells (transp : Int × Int → Bool) : List (Int × Int) → List (Int × Int)
  | [] => []
  | p :: rest => p :: (if transp p then walkedCells transp rest else [])

/-- Body of the double loop of `post_process_vision` (lib.rs:153 and
lib.rs:417) for one cell `(x, y)`. -/
def postCell (index : Int × Int → Int) (transp : Int × Int → Bool)
    (dx dy : Int) (v : Int → Bool) (x y : Int) : Int → Bool :=
  if ¬ transp (x, y) ∧ ¬ v (index (x, y)) then
    let i0 := index (x + dx, y)
    let i1 := index (x, y + dy)
    if (transp (x + dx, y) ∧ v i0) ∨ (transp (x, y + dy) ∧ v i1) then
      setIdx v (index (x, y)) true
    else v
  else v

/-- Rust `post_process_vision`: iterate `postCell` over the rectangle
`minx..=maxx × miny..=maxy`, `x` outer and `y` inner as in the source. -/
def postPass (index : Int × Int → Int) (transp : Int × Int → Bool)
    (minx miny maxx maxy dx dy : Int) (v : Int → Bool) : Int → Bool :=
  (intRange minx (maxx + 1)).foldl
    (fun vx xx =>
      (intRange miny (maxy + 1)).foldl
        (fun vy yy => postCell index transp dx dy vy xx yy) vx)
    v

/-- The ray destinations of the sweep (lib.rs:92-99 and lib.rs:274-317):
for every `x` in `minx..=maxx` the cells `(x, miny)` and `(x, maxy)`,
then for every `y` in `miny+1..maxy` the cells `(minx, y)` and
`(maxx, y)`, in the source's order. -/
def perimeterTargets (minx miny maxx maxy : Int) : List (Int × Int) :=
  ((intRange minx (maxx + 1)).flatMap (fun xx => [(xx, miny), (xx, maxy)])) ++
  ((intRange (miny + 1) maxy).flatMap (fun yy => [(minx, yy), (maxx, yy)]))

/-- The vision buffer computed by `FovMap::calculate_fov` (lib.rs:64-105)
as a function of the inputs it reads: the transparency buffer, the
dimensions, the origin and the radius.  `none` models the
`assert_in_bounds` panic; otherwise the result is the final vision
buffer.  The statement order mirrors the source: square the radius,
bounds-assert, reset vision and mark the origin, early return for
`radius < 1`, clip the bounding square, early return when it is
degenerate, cast the perimeter rays, then the four quadrant
post-processing passes (SE, SW, NW, NE). -/
def calculateFovVision (transparent : Int → Bool) (width height x y radius : Int) :
    Option (Int → Bool) :=
  let radius_square := radius ^ 2
  if x < 0 ∨ y < 0 ∨ x ≥ width ∨ y ≥ height then none
  else
    let vision1 := setIdx (fun _ => false) (x + y * width) true
    if radius < 1 then some vision1
    else
      let minx := max (x - radius) 0
      let miny := max (y - radius) 0
      let maxx := min (x + radius) (width - 1)
      let maxy := min (y + radius) (height - 1)
      if maxx - minx = 0 ∨ maxy - miny = 0 then some vision1
      else
        let index := fun (p : Int × Int) => p.1 + p.2 * width
        let transp := fun (p : Int × Int) => transparent (index p)
        let dist := fun (p : Int × Int) => (p.1 - x) ^ 2 + (p.2 - y) ^ 2
        let v1 := (perimeterTargets minx miny maxx maxy).foldl
          (fun v d => rayWalk index dist transp radius_square v
            ((bresenham (x, y) d).drop 1)) vision1
        let v2 := postPass index transp (x + 1) (y + 1) maxx maxy (-1) (-1) v1
        let v3 := postPass index transp minx (y + 1) (x - 1) maxy 1 (-1) v2
        let v4 := postPass index transp minx miny (x - 1) (y - 1) 1 1 v3
        let v5 := postPass index transp (x + 1) miny maxx (y - 1) (-1) 1 v4
        some v5

/-- The `FovMap` struct (lib.rs:8-19). -/
structure FovMap where
  transparent : Int → Bool
  vision : Int → Bool
  width : Int
  height : Int
  lastOrigin : Int × Int

/-- Rust `FovMap::new` (lib.rs:22-36).  Note the source tests
`width <= 0 && height <= 0` (a conjunction).  When that test passes but
the product `width * height` is negative, `vec![true; (width * height) as
usize]` casts the negative `i32` product to an enormous `usize` and the
allocation panics with a capacity overflow, modelled by
`FovError.capacityOverflow`; a zero product allocates an empty vector and
succeeds. -/
def FovMap.new (width height : Int) : Except FovError FovMap :=
  if width ≤ 0 ∧ height ≤ 0 then
    Except.error (FovError.badDimensions width height)
  else if width * height < 0 then
    Except.error (FovError.capacityOverflow (width * height))
  else
    Except.ok
      { transparent := fun _ => true
        vision := fun _ => false
        width := width
        height := height
        lastOrigin := (-1, -1) }

/-- Rust `FovMap::size` (lib.rs:39-41). -/
def FovMap.size (m : FovMap) : Int × Int := (m.width, m.height)

/-- The condition under which `FovMap::assert_in_bounds` (lib.rs:117-124)
panics. -/
def FovMap.boundsViolation (m : FovMap) (x y : Int) : Prop :=
  x < 0 ∨ y < 0 ∨ x ≥ m.width ∨ y ≥ m.height

instance (m : FovMap) (x y : Int) : Decidable (m.boundsViolation x y) := by
  unfold FovMap.boundsViolation; infer_instance

/-- Rust `FovMap::index` (lib.rs:127-129); the `as usize` cast is the identity
for the in-range coordinates this is applied to. -/
def FovMap.index (m : FovMap) (x y : Int) : Int := x + y * m.width

/-- Rust `FovMap::set_transparent` (lib.rs:44-48). -/
def FovMap.set_transparent (m : FovMap) (x y : Int) (is_transparent : Bool) :
    Except FovError FovMap :=
  if m.boundsViolation x y then
    Except.error (FovError.outOfBounds m.width m.height x y)
  else Except.ok { m with transparent := setIdx m.transparent (m.index x y) is_transparent }

/-- Rust `FovMap::is_transparent` (lib.rs:51-55). -/
def FovMap.is_transparent (m : FovMap) (x y : Int) : Except FovError Bool :=
  if m.boundsViolation x y then
    Except.error (FovError.outOfBounds m.width m.height x y)
  else Except.ok (m.transparent (m.index x y))

/-- Rust `FovMap::cast_ray_and_mark_visible` (lib.rs:131-151): walk the Bresenham
line from `origin` to `destination`, skipping the origin itself
(`.skip(1)`), marking cells within the radius and stopping at the first
non-transparent cell. -/
def FovMap.cast_ray_and_mark_visible (m : FovMap) (origin destination : Int × Int)
    (radius_square : Int) : FovMap :=
  { m with
    vision := rayWalk (fun p => p.1 + p.2 * m.width)
      (fun p => (p.1 - origin.1) ^ 2 + (p.2 - origin.2) ^ 2)
      (fun p => m.transparent (p.1 + p.2 * m.width))
      radius_square m.vision ((bresenham origin destination).drop 1) }

/-- Rust `FovMap::calculate_fov` (lib.rs:64-105), via `calculateFovVision`. -/
def FovMap.calculate_fov (m : FovMap) (x y radius : Int) : Except FovError FovMap :=
  match calculateFovVision m.transparent m.width m.height x y radius with
  | none => Except.error (FovError.outOfBounds m.width m.height x y)
  | some v => Except.ok { m with vision := v, lastOrigin := (x, y) }

/-- Rust `FovMap::is_in_fov` (lib.rs:107-111). -/
def FovMap.is_in_fov (m : FovMap) (x y : Int) : Except FovError Bool :=
  if m.boundsViolation x y then
    Except.error (FovError.outOfBounds m.width m.height x y)
  else Except.ok (m.vision (m.index x y))

/-- Rust `FovMap::is_in_bounds` (lib.rs:113-115).  The source tests
`x >= 0 && y > -0 && x < self.width && y < self.height`; note the
`y > -0` (rather than `y >= 0`). -/
def FovMap.is_in_bounds (m : FovMap) (x y : Int) : Bool :=
  decide (x ≥ 0) && decide (y > -0) && decide (x < m.width) && decide (y < m.height)

/-- The free `is_bounded` (lib.rs:231-234); despite its name it returns
`true` when `(x, y)` is OUT of the `width × height` bounds. -/
def is_bounded (width height x y : Int) : Bool :=
  decide (x < 0) || decide (y < 0) || decide (x ≥ width) || decide (y ≥ height)

/-- The free `field_of_view` (lib.rs:246-390).  The `Map` capability is
passed as the dimensions plus the `is_transparent` query.  Statement
order mirrors the source; the sub-grid buffer of the Rust code is the
function `Int → Bool` indexed by `local_x + local_y * sub_width`.
Source line 272 reads `visibles[origin index]` but does not assign to it
(the statement has no `= true`), so it has no effect and the origin is
never marked; the embedding accordingly performs no origin marking. -/
def field_of_view (width height : Int) (map_is_transparent : Int → Int → Bool)
    (x y radius : Int) : Except FovError (List (Int × Int)) :=
  let radius_square := radius ^ 2
  if is_bounded width height x y then
    Except.error (FovError.outOfBounds width height x y)
  else if radius < 1 then Except.ok [(x, y)]
  else
    let minx := max (x - radius) 0
    let miny := max (y - radius) 0
    let maxx := min (x + radius) (width - 1)
    let maxy := min (y + radius) (height - 1)
    if maxx - minx = 0 ∨ maxy - miny = 0 then Except.ok []
    else
      let sub_width := maxx - minx + 1
      let sub_height := maxy - miny + 1
      let offset_x := minx
      let offset_y := miny
      let sub_origin := (x - offset_x, y - offset_y)
      let index := fun (p : Int × Int) => p.1 + p.2 * sub_width
      let transp := fun (p : Int × Int) =>
        map_is_transparent (p.1 + offset_x) (p.2 + offset_y)
      let dist := fun (p : Int × Int) =>
        (p.1 - sub_origin.1) ^ 2 + (p.2 - sub_origin.2) ^ 2
      let visibles0 : Int → Bool := fun _ => false
      let v1 := (perimeterTargets minx miny maxx maxy).foldl
        (fun v d => rayWalk index dist transp radius_square v
          ((bresenham sub_origin (d.1 - offset_x, d.2 - offset_y)).drop 1)) visibles0
      let v2 := postPass index transp (x - offset_x + 1) (y - offset_y + 1)
        (maxx - offset_x) (maxy - offset_y) (-1) (-1) v1
      let v3 := postPass index transp (minx - offset_x) (y - offset_y + 1)
        (x - offset_x - 1) (maxy - offset_y) 1 (-1) v2
      let v4 := postPass index transp (minx - offset_x) (miny - offset_y)
        (x - offset_x - 1) (y - offset_y - 1) 1 1 v3
      let v5 := postPass index transp (x - offset_x + 1) (miny - offset_y)
        (maxx - offset_x) (y - offset_y - 1) (-1) 1 v4
      Except.ok
        (((intRange 0 (sub_width * sub_height)).filter (fun i => v5 i)).map
          (fun i => (i % sub_width + offset_x, i / sub_width + offset_y)))

/-- The `SampleMap` struct (lib.rs:453-464). -/
structure SampleMap where
  transparent : Int → Bool
  vision : Int → Bool
  width : Int
  height : Int
  lastOrigin : Int × Int

/-- Rust `SampleMap::new` (lib.rs:478-492); same `&&` dimension test and
same allocation-panic behaviour for a negative `width * height` product
as `FovMap::new`. -/
def SampleMap.new (width height : Int) : Except FovError SampleMap :=
  if width ≤ 0 ∧ height ≤ 0 then
    Except.error (FovError.badDimensions width height)
  else if width * height < 0 then
    Except.error (FovError.capacityOverflow (width * height))
  else
    Except.ok
      { transparent := fun _ => true
        vision := fun _ => false
        width := width
        height := height
        lastOrigin := (-1, -1) }

/-- Rust `SampleMap::set_transparent` (lib.rs:494-496).  No bounds check: the
source writes `self.transparent[(x + y * self.width) as usize]` directly.
The vector has `width * height` elements, so the write panics
(modelled as `none`) only when the computed flat index leaves
`[0, width * height)`; for any other out-of-range `(x, y)` it silently
writes whatever cell owns that flat index. -/
def SampleMap.set_transparent (m : SampleMap) (x y : Int) (is_transparent : Bool) :
    Option SampleMap :=
  let i := x + y * m.width
  if 0 ≤ i ∧ i < m.width * m.height then
    some { m with transparent := setIdx m.transparent i is_transparent }
  else none

/-- Rust `SampleMap::is_transparent` from its `Map` impl (lib.rs:471-474), as
the transparency query handed to `field_of_view`. -/
def SampleMap.mapIsTransparent (m : SampleMap) : Int → Int → Bool :=
  fun x y => m.transparent (x + y * m.width)

/-- Rust `SampleMap::calculate_fov` (lib.rs:498-509): reset vision, call
`field_of_view` on itself, then set the returned coordinates visible and
record the origin. -/
def SampleMap.calculate_fov (m : SampleMap) (x y radius : Int) :
    Except FovError SampleMap :=
  match field_of_view m.width m.height m.mapIsTransparent x y radius with
  | Except.error e => Except.error e
  | Except.ok visibles =>
    Except.ok
      { m with
        vision := visibles.foldl (fun v p => setIdx v (p.1 + p.2 * m.width) true)
          (fun _ => false)
        lastOrigin := (x, y) }

/-! ## Concrete instances used in witnesses and counterexamples -/

/-- A fresh fully-transparent 10×10 grid, as built by `FovMap::new(10, 10)`. -/
def fov10 : FovMap :=
  { transparent := fun _ => true
    vision := fun _ => false
    width := 10
    height := 10
    lastOrigin := (-1, -1) }

/-- A fresh fully-transparent degenerate 1×5 grid (`FovMap::new(1, 5)`). -/
def fov1x5 : FovMap :=
  { transparent := fun _ => true
    vision := fun _ => false
    width := 1
    height := 5
    lastOrigin := (-1, -1) }

/-- A fresh fully-transparent 10×10 `SampleMap` (`SampleMap::new(10, 10)`). -/
def sample10 : SampleMap :=
  { transparent := fun _ => true
    vision := fun _ => false
    width := 10
    height := 10
    lastOrigin := (-1, -1) }

/-- A 10×10 grid whose only wall is the cell `(5, 3)` (flat index 35). -/
def wallMap : FovMap :=
  { transparent := fun i => decide (i ≠ 35)
    vision := fun _ => false
    width := 10
    height := 10
    lastOrigin := (-1, -1) }

/-- The state of `fov10` after `calculate_fov(5, 5, 0)`: only the origin
cell is marked. -/
def fov10AtRadius0 : FovMap :=
  { fov10 with
    vision := setIdx (fun _ => false) (5 + 5 * 10) true
    lastOrigin := (5, 5) }

/-- The vision buffer of `fov10` after `calculate_fov(5, 5, 2)`. -/
def vision552 : Int → Bool :=
  (calculateFovVision (fun _ => true) 10 10 5 5 2).get (by decide)

/-- The state of `fov10` after `calculate_fov(5, 5, 2)`. -/
def fov10At552 : FovMap :=
  { fov10 with
    vision := vision552
    lastOrigin := (5, 5) }

/-- The vision buffer of `fov1x5` after `calculate_fov(0, 2, 1)`. -/
def vision021 : Int → Bool :=
  (calculateFovVision (fun _ => true) 1 5 0 2 1).get (by decide)

/-- The state of `fov1x5` after `calculate_fov(0, 2, 1)`. -/
def fov1x5At021 : FovMap :=
  { fov1x5 with
    vision := vision021
    lastOrigin := (0, 2) }

/-! ## Basic lemmas -/

theorem setIdx_self (v : Int → Bool) (i : Int) (b : Bool) : setIdx v i b i = b := by
  simp [setIdx]

theorem setIdx_of_ne (v : Int → Bool) (i : Int) (b : Bool) (j : Int) (h : j ≠ i) :
    setIdx v i b j = v j := by
  simp [setIdx, h]

theorem setIdx_true_mono (v : Int → Bool) (i j : Int) (h : v j = true) :
    setIdx v i true j = true := by
  by_cases hj : j = i
  · simp [setIdx, hj]
  · simp [setIdx, hj, h]

theorem mem_intRange {a b k : Int} : k ∈ intRange a b ↔ a ≤ k ∧ k < b := by
  unfold intRange
  rw [List.mem_map]
  constructor
  · rintro ⟨i, hi, hk⟩
    rw [List.mem_range] at hi
    omega
  · intro h
    refine ⟨(k - a).toNat, ?_, ?_⟩
    · rw [List.mem_range]; omega
    · omega

/-- Flat indices `x + y * W` are injective on the `[0, W) × ℤ` strip. -/
theorem flatIndex_inj {W a b a' b' : Int} (ha : 0 ≤ a) (haW : a < W)
    (ha' : 0 ≤ a') (ha'W : a' < W) (h : a + b * W = a' + b' * W) :
    a = a' ∧ b = b' := by
  have hW : 0 < W := lt_of_le_of_lt ha haW
  have hb : b = b' := by
    by_contra hbb
    have h1 : a - a' = (b' - b) * W := by ring_nf; linarith [h]
    rcases lt_or_gt_of_ne hbb with hlt | hgt
    · have : b' - b ≥ 1 := by omega
      nlinarith
    · have : b' - b ≤ -1 := by omega
      nlinarith
  constructor
  · have := h
    rw [hb] at this
    omega
  · exact hb

/-- A fold of buffer updates each of which only sets indices satisfying `P`
leaves any other index's truth coming from the initial buffer. -/
theorem foldl_char {α : Type} (f : (Int → Bool) → α → (Int → Bool)) (P : Int → Prop) :
    ∀ (l : List α), (∀ v, ∀ a ∈ l, ∀ i, f v a i = true → v i = true ∨ P i) →
      ∀ v i, (l.foldl f v) i = true → v i = true ∨ P i := by
  intro l
  induction l with
  | nil => intro _ v i h; exact Or.inl h
  | cons a l ih =>
    intro hf v i h
    have step := ih (fun v a ha i => hf v a (List.mem_cons_of_mem _ ha) i) (f v a) i h
    rcases step with h1 | h2
    · exact hf v a (List.mem_cons_self a l) i h1
    · exact Or.inr h2

/-! ## Ray walk lemmas -/

theorem rayWalk_mono (index dist : Int × Int → Int) (transp : Int × Int → Bool)
    (rs : Int) :
    ∀ (pts : List (Int × Int)) (v : Int → Bool) (i : Int),
      v i = true → rayWalk index dist transp rs v pts i = true := by
  intro pts
  induction pts with
  | nil => intro v i h; exact h
  | cons p rest ih =>
    intro v i h
    have hv' : (if dist p ≤ rs ∨ rs = 0 then setIdx v (index p) true else v) i = true := by
      split
      · exact setIdx_true_mono v (index p) i h
      · exact h
    by_cases ht : transp p
    · simp only [rayWalk]
      rw [if_neg (not_not_intro ht)]
      exact ih _ i hv'
    · simp only [rayWalk]
      rw [if_pos ht]
      exact hv'

theorem rayWalk_eq_walkedCells (index dist : Int × Int → Int)
    (transp : Int × Int → Bool) (rs : Int) :
    ∀ (pts : List (Int × Int)) (v : Int → Bool),
      rayWalk index dist transp rs v pts
        = rayWalk index dist transp rs v (walkedCells transp pts) := by
  intro pts
  induction pts with
  | nil => intro v; rfl
  | cons p rest ih =>
    intro v
    by_cases ht : transp p
    · simp only [rayWalk, walkedCells]
      rw [if_pos ht, if_neg (not_not_intro ht), if_neg (not_not_intro ht)]
      exact ih _
    · simp only [rayWalk, walkedCells]
      rw [if_neg ht, if_pos ht, if_pos ht]

theorem rayWalk_frame (index dist : Int × Int → Int) (transp : Int × Int → Bool)
    (rs : Int) :
    ∀ (pts : List (Int × Int)) (v : Int → Bool) (i : Int),
      (∀ p ∈ pts, index p ≠ i) → rayWalk index dist transp rs v pts i = v i := by
  intro pts
  induction pts with
  | nil => intro v i _; rfl
  | cons p rest ih =>
    intro v i hni
    have hne : i ≠ index p := fun h => hni p (List.mem_cons_self p rest) h.symm
    have hv' : (if dist p ≤ rs ∨ rs = 0 then setIdx v (index p) true else v) i = v i := by
      split
      · exact setIdx_of_ne v (index p) true i hne
      · rfl
    by_cases ht : transp p
    · simp only [rayWalk]
      rw [if_neg (not_not_intro ht)]
      rw [ih _ i (fun q hq => hni q (List.mem_cons_of_mem p hq))]
      exact hv'
    · simp only [rayWalk]
      rw [if_pos ht]
      exact hv'

theorem rayWalk_marks (index dist : Int × Int → Int) (transp : Int × Int → Bool)
    (rs : Int) :
    ∀ (pts : List (Int × Int)) (v : Int → Bool) (p : Int × Int),
      p ∈ walkedCells transp pts → (dist p ≤ rs ∨ rs = 0) →
      rayWalk index dist transp rs v pts (index p) = true := by
  intro pts
  induction pts with
  | nil => intro v p hp _; cases hp
  | cons q rest ih =>
    intro v p hp hd
    rcases List.mem_cons.mp hp with hpq | hptail
    · subst hpq
      have hv' : (if dist p ≤ rs ∨ rs = 0 then setIdx v (index p) true else v) (index p)
          = true := by
        rw [if_pos hd]
        exact setIdx_self v (index p) true
      by_cases ht : transp p
      · simp only [rayWalk]
        rw [if_neg (not_not_intro ht)]
        exact rayWalk_mono index dist transp rs rest _ _ hv'
      · simp only [rayWalk]
        rw [if_pos ht]
        exact hv'
    · by_cases ht : transp q
      · rw [if_pos ht] at hptail
        simp only [rayWalk]
        rw [if_neg (not_not_intro ht)]
        exact ih _ p hptail hd
      · rw [if_neg ht] at hptail
        cases hptail

theorem rayWalk_char (index dist : Int × Int → Int) (transp : Int × Int → Bool)
    (rs : Int) :
    ∀ (pts : List (Int × Int)) (v : Int → Bool) (i : Int),
      rayWalk index dist transp rs v pts i = true →
      v i = true ∨ ∃ p ∈ pts, index p = i ∧ (dist p ≤ rs ∨ rs = 0) := by
  intro pts
  induction pts with
  | nil => intro v i h; exact Or.inl h
  | cons p rest ih =>
    intro v i h
    have hstep : ∀ v0 : Int → Bool,
        (if dist p ≤ rs ∨ rs = 0 then setIdx v0 (index p) true else v0) i = true →
        v0 i = true ∨ ∃ q ∈ p :: rest, index q = i ∧ (dist q ≤ rs ∨ rs = 0) := by
      intro v0 hv0
      split at hv0
      · by_cases hip : i = index p
        · exact Or.inr ⟨p, List.mem_cons_self p rest, hip.symm, by assumption⟩
        · rw [setIdx_of_ne v0 (index p) true i hip] at hv0
          exact Or.inl hv0
      · exact Or.inl hv0
    by_cases ht : transp p
    · simp only [rayWalk] at h
      rw [if_neg (not_not_intro ht)] at h
      rcases ih _ i h with h1 | ⟨q, hq, hqi, hqd⟩
      · exact hstep v h1
      · exact Or.inr ⟨q, List.mem_cons_of_mem p hq, hqi, hqd⟩
    · simp only [rayWalk] at h
      rw [if_pos ht] at h
      exact hstep v h

/-! ## Post-processing lemmas -/

theorem postCell_char (index : Int × Int → Int) (transp : Int × Int → Bool)
    (dx dy : Int) (v : Int → Bool) (x y i : Int)
    (h : postCell index transp dx dy v x y i = true) :
    v i = true ∨ (index (x, y) = i ∧ transp (x, y) = false) := by
  unfold postCell at h
  split at h
  case isTrue hg =>
    dsimp only at h
    split at h
    · by_cases hip : i = index (x, y)
      · exact Or.inr ⟨hip.symm, Bool.eq_false_iff.mpr hg.1⟩
      · rw [setIdx_of_ne v (index (x, y)) true i hip] at h
        exact Or.inl h
    · exact Or.inl h
  case isFalse => exact Or.inl h

theorem postPass_char (index : Int × Int → Int) (transp : Int × Int → Bool)
    (minx miny maxx maxy dx dy : Int) (v : Int → Bool) (i : Int)
    (h : postPass index transp minx miny maxx maxy dx dy v i = true) :
    v i = true ∨ ∃ p : Int × Int, index p = i ∧ transp p = false := by
  unfold postPass at h
  refine foldl_char _ (fun j => ∃ p : Int × Int, index p = j ∧ transp p = false) _ ?_ v i h
  intro vx xx _ j hj
  refine foldl_char _ (fun j => ∃ p : Int × Int, index p = j ∧ transp p = false) _ ?_ vx j hj
  intro vy yy _ k hk
  rcases postCell_char index transp dx dy vy xx yy k hk with h1 | ⟨he, ht⟩
  · exact Or.inl h1
  · exact Or.inr ⟨(xx, yy), he, ht⟩

/-! ## Bresenham bounding-box lemmas -/

theorem bresenhamGo_box (x1 y1 dx dy sx sy lox hix loy hiy : Int)
    (hsx : (sx = 1 ∧ hix = x1) ∨ (sx = -1 ∧ lox = x1))
    (hsy : (sy = 1 ∧ hiy = y1) ∨ (sy = -1 ∧ loy = y1)) :
    ∀ (fuel : Nat) (x y err : Int), lox ≤ x → x ≤ hix → loy ≤ y → y ≤ hiy →
      ∀ p ∈ bresenhamGo x1 y1 dx dy sx sy fuel x y err,
        lox ≤ p.1 ∧ p.1 ≤ hix ∧ loy ≤ p.2 ∧ p.2 ≤ hiy := by
  intro fuel
  induction fuel with
  | zero => intro x y err _ _ _ _ p hp; cases hp
  | succ n ih =>
    intro x y err hx1 hx2 hy1 hy2 p hp
    rw [bresenhamGo] at hp
    rcases List.mem_cons.mp hp with heq | htail
    · subst heq
      exact ⟨hx1, hx2, hy1, hy2⟩
    · split at htail
      · cases htail
      · dsimp only at htail
        by_cases hcx : 2 * err ≥ dy ∧ x ≠ x1 <;>
          by_cases hcy : 2 * err ≤ dx ∧ y ≠ y1
        · rw [if_pos hcx, if_pos hcy] at htail
          rcases hsx with ⟨hs, he⟩ | ⟨hs, he⟩ <;> rcases hsy with ⟨hs', he'⟩ | ⟨hs', he'⟩ <;>
            exact ih _ _ _ (by omega) (by omega) (by omega) (by omega) p htail
        · rw [if_pos hcx, if_neg hcy] at htail
          rcases hsx with ⟨hs, he⟩ | ⟨hs, he⟩ <;>
            exact ih _ _ _ (by omega) (by omega) (by omega) (by omega) p htail
        · rw [if_neg hcx, if_pos hcy] at htail
          rcases hsy with ⟨hs', he'⟩ | ⟨hs', he'⟩ <;>
            exact ih _ _ _ (by omega) (by omega) (by omega) (by omega) p htail
        · rw [if_neg hcx, if_neg hcy] at htail
          exact ih _ _ _ (by omega) (by omega) (by omega) (by omega) p htail

theorem bresenham_box (o d : Int × Int) :
    ∀ p ∈ bresenham o d,
      min o.1 d.1 ≤ p.1 ∧ p.1 ≤ max o.1 d.1 ∧ min o.2 d.2 ≤ p.2 ∧ p.2 ≤ max o.2 d.2 := by
  obtain ⟨x0, y0⟩ := o
  obtain ⟨x1, y1⟩ := d
  intro p hp
  unfold bresenham at hp
  dsimp only at hp
  dsimp only
  by_cases hx : x0 < x1 <;> by_cases hy : y0 < y1
  · rw [if_pos hx, if_pos hy] at hp
    exact bresenhamGo_box x1 y1 _ _ 1 1 (min x0 x1) (max x0 x1) (min y0 y1) (max y0 y1)
      (Or.inl ⟨rfl, by omega⟩) (Or.inl ⟨rfl, by omega⟩) _ x0 y0 _
      (by omega) (by omega) (by omega) (by omega) p hp
  · rw [if_pos hx, if_neg hy] at hp
    exact bresenhamGo_box x1 y1 _ _ 1 (-1) (min x0 x1) (max x0 x1) (min y0 y1) (max y0 y1)
      (Or.inl ⟨rfl, by omega⟩) (Or.inr ⟨rfl, by omega⟩) _ x0 y0 _
      (by omega) (by omega) (by omega) (by omega) p hp
  · rw [if_neg hx, if_pos hy] at hp
    exact bresenhamGo_box x1 y1 _ _ (-1) 1 (min x0 x1) (max x0 x1) (min y0 y1) (max y0 y1)
      (Or.inr ⟨rfl, by omega⟩) (Or.inl ⟨rfl, by omega⟩) _ x0 y0 _
      (by omega) (by omega) (by omega) (by omega) p hp
  · rw [if_neg hx, if_neg hy] at hp
    exact bresenhamGo_box x1 y1 _ _ (-1) (-1) (min x0 x1) (max x0 x1) (min y0 y1) (max y0 y1)
      (Or.inr ⟨rfl, by omega⟩) (Or.inr ⟨rfl, by omega⟩) _ x0 y0 _
      (by omega) (by omega) (by omega) (by omega) p hp

theorem mem_perimeterTargets {minx miny maxx maxy : Int} {d : Int × Int}
    (hx : minx ≤ maxx) (hy : miny ≤ maxy)
    (hd : d ∈ perimeterTargets minx miny maxx maxy) :
    minx ≤ d.1 ∧ d.1 ≤ maxx ∧ miny ≤ d.2 ∧ d.2 ≤ maxy := by
  unfold perimeterTargets at hd
  rcases List.mem_append.mp hd with h | h <;>
    rcases List.mem_flatMap.mp h with ⟨c, hc, hmem⟩ <;>
      rw [mem_intRange] at hc <;>
        simp only [List.mem_cons, List.mem_singleton, List.not_mem_nil, or_false] at hmem <;>
          rcases hmem with rfl | rfl <;> constructor <;> simp <;> omega

/-! ## Exact characterization of the rasterized line

The digital line from `(x0, y0)` to `(x1, y1)` with `|Δy| ≤ |Δx|`,
`Δx ≠ 0`, visits exactly the cells
`(x0 + sx*u, y0 + sy*((2*u*|Δy| + |Δx|) / (2*|Δx|)))` for
`u = 0, …, |Δx|` — the Bresenham rounding of the ideal line.  The steep
case follows by the swap symmetry of the algorithm. -/

theorem intRange_eq_nil {a b : Int} (h : b ≤ a) : intRange a b = [] := by
  unfold intRange
  have : (b - a).toNat = 0 := by omega
  rw [this]
  rfl

theorem intRange_cons {a b : Int} (h : a < b) :
    intRange a b = a :: intRange (a + 1) b := by
  unfold intRange
  have h1 : (b - a).toNat = (b - (a + 1)).toNat + 1 := by omega
  rw [h1, List.range_succ_eq_map, List.map_cons, List.map_map]
  congr 1
  · simp
  · apply List.map_congr_left
    intro i _
    simp only [Function.comp]
    push_cast
    ring

theorem bresenhamGo_swap (x1 y1 dx dy sx sy : Int) :
    ∀ (fuel : Nat) (x y err : Int),
      bresenhamGo x1 y1 dx dy sx sy fuel x y err
        = (bresenhamGo y1 x1 (-dy) (-dx) sy sx fuel y x (-err)).map
            (fun p => (p.2, p.1)) := by
  intro fuel
  induction fuel with
  | zero => intro x y err; rfl
  | succ n ih =>
    intro x y err
    rw [bresenhamGo, bresenhamGo]
    simp only [List.map_cons]
    by_cases hend : x = x1 ∧ y = y1
    · rw [if_pos hend, if_pos (show y = y1 ∧ x = x1 from ⟨hend.2, hend.1⟩)]
      rfl
    · rw [if_neg hend,
        if_neg (show ¬(y = y1 ∧ x = x1) from fun hc => hend ⟨hc.2, hc.1⟩)]
      by_cases hcx : 2 * err ≥ dy ∧ x ≠ x1 <;> by_cases hcy : 2 * err ≤ dx ∧ y ≠ y1
      · rw [if_pos hcx, if_pos hcx, if_pos hcy, if_pos hcy,
          if_pos (show 2 * -err ≥ -dx ∧ y ≠ y1 from ⟨by omega, hcy.2⟩),
          if_pos (show 2 * -err ≥ -dx ∧ y ≠ y1 from ⟨by omega, hcy.2⟩),
          if_pos (show 2 * -err ≤ -dy ∧ x ≠ x1 from ⟨by omega, hcx.2⟩),
          if_pos (show 2 * -err ≤ -dy ∧ x ≠ x1 from ⟨by omega, hcx.2⟩)]
        rw [show -err + -dx + -dy = -(err + dy + dx) by ring]
        exact congrArg _ (ih (x + sx) (y + sy) (err + dy + dx))
      · rw [if_pos hcx, if_pos hcx, if_neg hcy, if_neg hcy,
          if_neg (show ¬(2 * -err ≥ -dx ∧ y ≠ y1) from fun hc => hcy ⟨by omega, hc.2⟩),
          if_neg (show ¬(2 * -err ≥ -dx ∧ y ≠ y1) from fun hc => hcy ⟨by omega, hc.2⟩),
          if_pos (show 2 * -err ≤ -dy ∧ x ≠ x1 from ⟨by omega, hcx.2⟩),
          if_pos (show 2 * -err ≤ -dy ∧ x ≠ x1 from ⟨by omega, hcx.2⟩)]
        rw [show -err + -dy = -(err + dy) by ring]
        exact congrArg _ (ih (x + sx) y (err + dy))
      · rw [if_neg hcx, if_neg hcx, if_pos hcy, if_pos hcy,
          if_pos (show 2 * -err ≥ -dx ∧ y ≠ y1 from ⟨by omega, hcy.2⟩),
          if_pos (show 2 * -err ≥ -dx ∧ y ≠ y1 from ⟨by omega, hcy.2⟩),
          if_neg (show ¬(2 * -err ≤ -dy ∧ x ≠ x1) from fun hc => hcx ⟨by omega, hc.2⟩),
          if_neg (show ¬(2 * -err ≤ -dy ∧ x ≠ x1) from fun hc => hcx ⟨by omega, hc.2⟩)]
        rw [show -err + -dx = -(err + dx) by ring]
        exact congrArg _ (ih x (y + sy) (err + dx))
      · rw [if_neg hcx, if_neg hcx, if_neg hcy, if_neg hcy,
          if_neg (show ¬(2 * -err ≥ -dx ∧ y ≠ y1) from fun hc => hcy ⟨by omega, hc.2⟩),
          if_neg (show ¬(2 * -err ≥ -dx ∧ y ≠ y1) from fun hc => hcy ⟨by omega, hc.2⟩),
          if_neg (show ¬(2 * -err ≤ -dy ∧ x ≠ x1) from fun hc => hcx ⟨by omega, hc.2⟩),
          if_neg (show ¬(2 * -err ≤ -dy ∧ x ≠ x1) from fun hc => hcx ⟨by omega, hc.2⟩)]
        exact congrArg _ (ih x y err)

theorem bresenham_swap (o d : Int × Int) :
    bresenham o d = (bresenham (o.2, o.1) (d.2, d.1)).map (fun p => (p.2, p.1)) := by
  obtain ⟨x0, y0⟩ := o
  obtain ⟨x1, y1⟩ := d
  unfold bresenham
  dsimp only
  rw [bresenhamGo_swap]
  rw [show (-(-((y1 - y0).natAbs : Int))) = ((y1 - y0).natAbs : Int) by ring]
  rw [show (-(((x1 - x0).natAbs : Int) + -((y1 - y0).natAbs : Int)))
      = ((y1 - y0).natAbs : Int) + -((x1 - x0).natAbs : Int) by ring]
  rw [show (x1 - x0).natAbs + (y1 - y0).natAbs + 1
      = (y1 - y0).natAbs + (x1 - x0).natAbs + 1 by omega]

set_option maxHeartbeats 1600000 in
theorem bresenhamGo_shallow (x0 y0 sx sy dd dm : Int)
    (hdd : 1 ≤ dd) (hdm0 : 0 ≤ dm) (hsh : dm ≤ dd)
    (hsx : sx = 1 ∨ sx = -1) (hsy : sy = 1 ∨ sy = -1) :
    ∀ (n fuel : Nat), n + 1 ≤ fuel → ∀ u : Int, 0 ≤ u → u + (n : Int) = dd →
      bresenhamGo (x0 + sx * dd) (y0 + sy * dm) dd (-dm) sx sy fuel
        (x0 + sx * u) (y0 + sy * ((2 * u * dm + dd) / (2 * dd)))
        (dd * (1 + (2 * u * dm + dd) / (2 * dd)) - dm * (1 + u))
      = (intRange u (dd + 1)).map (fun t =>
          (x0 + sx * t, y0 + sy * ((2 * t * dm + dd) / (2 * dd)))) := by
  intro n
  induction n with
  | zero =>
    intro fuel hfuel u hu0 hudd
    have hu : u = dd := by omega
    rw [hu]
    obtain ⟨f, rfl⟩ : ∃ f, fuel = f + 1 := ⟨fuel - 1, by omega⟩
    have hv : (2 * dd * dm + dd) / (2 * dd) = dm := by
      rw [show 2 * dd * dm + dd = dd + dm * (2 * dd) by ring,
        Int.add_mul_ediv_right _ _ (by omega : (2 : Int) * dd ≠ 0),
        Int.ediv_eq_zero_of_lt (by omega) (by omega)]
      omega
    rw [hv, bresenhamGo, if_pos ⟨rfl, rfl⟩,
      intRange_cons (by omega : dd < dd + 1),
      intRange_eq_nil (by omega : dd + 1 ≤ dd + 1)]
    simp only [List.map_cons, List.map_nil]
    rw [hv]
  | succ n ih =>
    intro fuel hfuel u hu0 hudd
    obtain ⟨f, rfl⟩ : ∃ f, fuel = f + 1 := ⟨fuel - 1, by omega⟩
    have hult : u < dd := by omega
    have h2dd : (0 : Int) < 2 * dd := by omega
    obtain ⟨q, hq⟩ : ∃ q, (2 * u * dm + dd) / (2 * dd) = q := ⟨_, rfl⟩
    obtain ⟨q', hq'⟩ : ∃ q', (2 * (u + 1) * dm + dd) / (2 * dd) = q' := ⟨_, rfl⟩
    obtain ⟨r, hr⟩ : ∃ r, (2 * u * dm + dd) % (2 * dd) = r := ⟨_, rfl⟩
    obtain ⟨r', hr'⟩ : ∃ r', (2 * (u + 1) * dm + dd) % (2 * dd) = r' := ⟨_, rfl⟩
    have hqr : 2 * dd * q + r = 2 * u * dm + dd := by
      rw [← hq, ← hr]; exact Int.ediv_add_emod _ _
    have hq'r : 2 * dd * q' + r' = 2 * (u + 1) * dm + dd := by
      rw [← hq', ← hr']; exact Int.ediv_add_emod _ _
    have hr0 : 0 ≤ r := hr ▸ Int.emod_nonneg _ (by omega)
    have hrlt : r < 2 * dd := hr ▸ Int.emod_lt_of_pos _ h2dd
    have hr'0 : 0 ≤ r' := hr' ▸ Int.emod_nonneg _ (by omega)
    have hr'lt : r' < 2 * dd := hr' ▸ Int.emod_lt_of_pos _ h2dd
    have hqexp : 2 * dd * q = 2 * u * dm + dd - r := by linarith
    have hq'exp : 2 * dd * q' = 2 * u * dm + 2 * dm + dd - r' := by nlinarith [hq'r]
    have hstep0 : q ≤ q' := by
      by_contra hlt
      push_neg at hlt
      have h2 : 2 * dd * q' ≤ 2 * dd * (q - 1) :=
        mul_le_mul_of_nonneg_left (by omega) (by omega)
      nlinarith
    have hstep1 : q' ≤ q + 1 := by
      by_contra hgt
      push_neg at hgt
      have h2 : 2 * dd * (q + 2) ≤ 2 * dd * q' :=
        mul_le_mul_of_nonneg_left (by omega) (by omega)
      nlinarith
    have hqub : q' ≤ dm := by
      by_contra hgt
      push_neg at hgt
      have h2 : 2 * dd * (dm + 1) ≤ 2 * dd * q' :=
        mul_le_mul_of_nonneg_left (by omega) (by omega)
      have h3 : (u + 1) * dm ≤ dd * dm :=
        mul_le_mul_of_nonneg_right (by omega) hdm0
      nlinarith
    have hcx : 2 * (dd * (1 + q) - dm * (1 + u)) ≥ -dm := by nlinarith
    have hxne : x0 + sx * u ≠ x0 + sx * dd := by
      rcases hsx with rfl | rfl <;> omega
    rw [hq, bresenhamGo,
      if_neg (fun hc => hxne hc.1),
      intRange_cons (show u < dd + 1 by omega)]
    simp only [List.map_cons]
    rw [hq]
    have hpx : 2 * (dd * (1 + q) - dm * (1 + u)) ≥ -dm ∧
        x0 + sx * u ≠ x0 + sx * dd := ⟨hcx, hxne⟩
    by_cases hinc : q' = q + 1
    · have hcy : 2 * (dd * (1 + q) - dm * (1 + u)) ≤ dd := by nlinarith
      have hyne : y0 + sy * q ≠ y0 + sy * dm := by
        have : q < dm := by omega
        rcases hsy with rfl | rfl <;> omega
      have hpy : 2 * (dd * (1 + q) - dm * (1 + u)) ≤ dd ∧
          y0 + sy * q ≠ y0 + sy * dm := ⟨hcy, hyne⟩
      rw [if_pos hpx, if_pos hpx, if_pos hpy, if_pos hpy,
        show x0 + sx * u + sx = x0 + sx * (u + 1) by ring,
        show y0 + sy * q + sy = y0 + sy * q' by rw [hinc]; ring,
        show dd * (1 + q) - dm * (1 + u) + -dm + dd
          = dd * (1 + q') - dm * (1 + (u + 1)) by rw [hinc]; ring]
      have ihx := ih f (by omega) (u + 1) (by omega) (by omega)
      rw [hq'] at ihx
      exact congrArg _ ihx
    · have hq'' : q' = q := by omega
      have hpy : ¬(2 * (dd * (1 + q) - dm * (1 + u)) ≤ dd ∧
          y0 + sy * q ≠ y0 + sy * dm) := by
        intro hc
        have : 2 * (dd * (1 + q) - dm * (1 + u)) > dd := by nlinarith
        omega
      rw [if_pos hpx, if_pos hpx, if_neg hpy, if_neg hpy,
        show x0 + sx * u + sx = x0 + sx * (u + 1) by ring,
        show dd * (1 + q) - dm * (1 + u) + -dm
          = dd * (1 + q') - dm * (1 + (u + 1)) by rw [hq'']; ring,
        show y0 + sy * q = y0 + sy * q' by rw [hq'']]
      have ihx := ih f (by omega) (u + 1) (by omega) (by omega)
      rw [hq'] at ihx
      exact congrArg _ ihx

theorem bresenham_shallow (x0 y0 x1 y1 : Int) (hne : x0 ≠ x1)
    (hsh : (y1 - y0).natAbs ≤ (x1 - x0).natAbs) :
    bresenham (x0, y0) (x1, y1)
      = (intRange 0 (((x1 - x0).natAbs : Int) + 1)).map (fun t =>
          (x0 + (if x0 < x1 then 1 else -1) * t,
           y0 + (if y0 < y1 then 1 else -1) *
             ((2 * t * ((y1 - y0).natAbs : Int) + ((x1 - x0).natAbs : Int))
               / (2 * ((x1 - x0).natAbs : Int))))) := by
  unfold bresenham
  dsimp only
  have hx1 : x1 = x0 + (if x0 < x1 then 1 else -1) * ((x1 - x0).natAbs : Int) := by
    split <;> omega
  have hy1 : y1 = y0 + (if y0 < y1 then 1 else -1) * ((y1 - y0).natAbs : Int) := by
    split <;> omega
  have hmain := bresenhamGo_shallow x0 y0 (if x0 < x1 then 1 else -1)
    (if y0 < y1 then 1 else -1) ((x1 - x0).natAbs : Int) ((y1 - y0).natAbs : Int)
    (by omega) (by omega) (by omega)
    (by split <;> simp) (by split <;> simp)
    ((x1 - x0).natAbs) ((x1 - x0).natAbs + (y1 - y0).natAbs + 1) (by omega)
    0 le_rfl (by omega)
  have hv0 : (2 * 0 * ((y1 - y0).natAbs : Int) + ((x1 - x0).natAbs : Int))
      / (2 * ((x1 - x0).natAbs : Int)) = 0 := by
    rw [show 2 * 0 * ((y1 - y0).natAbs : Int) + ((x1 - x0).natAbs : Int)
        = ((x1 - x0).natAbs : Int) by ring]
    exact Int.ediv_eq_zero_of_lt (by omega) (by omega)
  rw [hv0, ← hx1, ← hy1,
    show x0 + (if x0 < x1 then 1 else -1) * (0 : Int) = x0 by ring,
    show y0 + (if y0 < y1 then 1 else -1) * (0 : Int) = y0 by ring,
    show ((x1 - x0).natAbs : Int) * (1 + 0) - ((y1 - y0).natAbs : Int) * (1 + 0)
      = ((x1 - x0).natAbs : Int) + -((y1 - y0).natAbs : Int) by ring] at hmain
  exact hmain

theorem bresenham_steep (x0 y0 x1 y1 : Int) (hne : y0 ≠ y1)
    (hst : (x1 - x0).natAbs ≤ (y1 - y0).natAbs) :
    bresenham (x0, y0) (x1, y1)
      = (intRange 0 (((y1 - y0).natAbs : Int) + 1)).map (fun t =>
          (x0 + (if x0 < x1 then 1 else -1) *
             ((2 * t * ((x1 - x0).natAbs : Int) + ((y1 - y0).natAbs : Int))
               / (2 * ((y1 - y0).natAbs : Int))),
           y0 + (if y0 < y1 then 1 else -1) * t)) := by
  rw [bresenham_swap (x0, y0) (x1, y1)]
  dsimp only
  rw [bresenham_shallow y0 x0 y1 x1 hne hst, List.map_map]
  rfl

/-! ## Arithmetic helpers for the coverage argument -/

theorem half_div_eval (c k : Int) (hc : 1 ≤ c) : (c + k * (2 * c)) / (2 * c) = k := by
  rw [Int.add_mul_ediv_right _ _ (by omega : 2 * c ≠ 0),
    Int.ediv_eq_zero_of_lt (by omega) (by omega)]
  omega

theorem ediv_step (A δ B : Int) (hB : 0 < B) (h0 : 0 ≤ δ) (h1 : δ ≤ B) :
    A / B ≤ (A + δ) / B ∧ (A + δ) / B ≤ A / B + 1 := by
  constructor
  · exact Int.ediv_le_ediv hB (by omega)
  · have h2 : (A + δ) / B ≤ (A + B) / B := Int.ediv_le_ediv hB (by omega)
    have h3 : (A + B) / B = A / B + 1 := by
      rw [show A + B = A + 1 * B by ring, Int.add_mul_ediv_right _ _ (by omega : B ≠ 0)]
    omega

theorem ediv_le_ediv_cross (a1 b1 a2 b2 : Int) (hb1 : 0 < b1) (hb2 : 0 < b2)
    (h : a1 * b2 ≤ a2 * b1) : a1 / b1 ≤ a2 / b2 := by
  rw [Int.le_ediv_iff_mul_le hb2]
  have hk : a1 / b1 * b1 ≤ a1 := by
    have := Int.ediv_add_emod a1 b1
    have := Int.emod_nonneg a1 (by omega : b1 ≠ 0)
    nlinarith
  have h2 : a1 / b1 * b1 * b2 ≤ a1 * b2 :=
    mul_le_mul_of_nonneg_right hk (by omega)
  have h3 : a1 / b1 * b2 * b1 ≤ a2 * b1 := by nlinarith
  exact le_of_mul_le_mul_right h3 hb1

theorem int_ivt (f : Int → Int) :
    ∀ (n : Nat) (lo : Int),
      (∀ w, lo ≤ w → w < lo + (n : Int) → f w ≤ f (w + 1) ∧ f (w + 1) ≤ f w + 1) →
      ∀ m : Int, f lo ≤ m → m ≤ f (lo + (n : Int)) →
      ∃ w, lo ≤ w ∧ w ≤ lo + (n : Int) ∧ f w = m := by
  intro n
  induction n with
  | zero =>
    intro lo _ m h1 h2
    refine ⟨lo, le_refl _, by omega, ?_⟩
    simp only [Nat.cast_zero, add_zero] at h2
    omega
  | succ k ih =>
    intro lo hstep m h1 h2
    by_cases hm : f lo = m
    · exact ⟨lo, le_refl _, by push_cast; omega, hm⟩
    · have hlt : f lo < m := by omega
      have hstep0 := hstep lo (le_refl _) (by push_cast; omega)
      have h1' : f (lo + 1) ≤ m := by omega
      have harg : lo + ((k : Int) + 1) = lo + 1 + (k : Int) := by ring
      have h2' : m ≤ f (lo + 1 + (k : Int)) := by
        rw [← harg]
        push_cast at h2
        exact h2
      obtain ⟨w, hw1, hw2, hw3⟩ := ih (lo + 1)
        (fun w hw1 hw2 => hstep w (by omega) (by push_cast; omega)) m h1' h2'
      exact ⟨w, by omega, by push_cast; omega, hw3⟩

theorem sweep_exists (E1 E2 Sx Sy : Int)
    (hE1 : 1 ≤ E1) (hSx : E1 ≤ Sx) (hE20 : 0 ≤ E2) (hE12 : E2 ≤ E1) (hSy : E2 ≤ Sy) :
    (∃ w, 0 ≤ w ∧ w ≤ Sy ∧ w ≤ Sx ∧ (2 * E1 * w + Sx) / (2 * Sx) = E2) ∨
    (∃ t, E1 ≤ t ∧ Sy ≤ t ∧ t ≤ Sx ∧ 1 ≤ Sy ∧ (2 * E1 * Sy + t) / (2 * t) = E2) := by
  have hSx1 : 1 ≤ Sx := le_trans hE1 hSx
  have hstep : ∀ w : Int, (fun w => (2 * E1 * w + Sx) / (2 * Sx)) w ≤
      (fun w => (2 * E1 * w + Sx) / (2 * Sx)) (w + 1) ∧
      (fun w => (2 * E1 * w + Sx) / (2 * Sx)) (w + 1) ≤
      (fun w => (2 * E1 * w + Sx) / (2 * Sx)) w + 1 := by
    intro w
    dsimp only
    rw [show 2 * E1 * (w + 1) + Sx = (2 * E1 * w + Sx) + 2 * E1 by ring]
    exact ediv_step _ _ _ (by omega) (by omega) (by omega)
  have hf0 : (2 * E1 * (0 : Int) + Sx) / (2 * Sx) = 0 := by
    rw [show 2 * E1 * (0 : Int) + Sx = Sx by ring]
    exact Int.ediv_eq_zero_of_lt (by omega) (by omega)
  have hfSx : (2 * E1 * Sx + Sx) / (2 * Sx) = E1 := by
    rw [show 2 * E1 * Sx + Sx = Sx + E1 * (2 * Sx) by ring]
    exact half_div_eval Sx E1 hSx1
  by_cases hcase : Sx ≤ Sy
  · left
    obtain ⟨w, hw1, hw2, hw3⟩ := int_ivt (fun w => (2 * E1 * w + Sx) / (2 * Sx))
      Sx.toNat 0 (fun w _ _ => hstep w) E2
      (by dsimp only; omega)
      (by dsimp only; rw [show (0 : Int) + (Sx.toNat : Int) = Sx by omega]; omega)
    rw [show (0 : Int) + (Sx.toNat : Int) = Sx by omega] at hw2
    exact ⟨w, hw1, by omega, hw2, hw3⟩
  · push_neg at hcase
    have hSy0 : 0 ≤ Sy := le_trans hE20 hSy
    by_cases hcase2 : E2 ≤ (2 * E1 * Sy + Sx) / (2 * Sx)
    · left
      obtain ⟨w, hw1, hw2, hw3⟩ := int_ivt (fun w => (2 * E1 * w + Sx) / (2 * Sx))
        Sy.toNat 0 (fun w _ _ => hstep w) E2
        (by dsimp only; omega)
        (by dsimp only; rw [show (0 : Int) + (Sy.toNat : Int) = Sy by omega]; exact hcase2)
      rw [show (0 : Int) + (Sy.toNat : Int) = Sy by omega] at hw2
      exact ⟨w, hw1, hw2, by omega, hw3⟩
    · right
      push_neg at hcase2
      have hfSy0 : 0 ≤ (2 * E1 * Sy + Sx) / (2 * Sx) :=
        Int.ediv_nonneg (by nlinarith) (by omega)
      have hE21 : 1 ≤ E2 := by omega
      have hSy1 : 1 ≤ Sy := le_trans hE21 hSy
      -- second sweep: t runs from Sx down to tmin := max Sy E1
      set tmin : Int := max Sy E1 with htmin
      have htmin1 : 1 ≤ tmin := le_trans hE1 (le_max_right _ _)
      have htminSx : tmin ≤ Sx := by
        rcases max_choice Sy E1 with h | h <;> omega
      set g2 : Int → Int := fun s => (2 * E1 * Sy + (Sx - s)) / (2 * (Sx - s)) with hg2
      have hg2step : ∀ s, 0 ≤ s → s < 0 + ((Sx - tmin).toNat : Int) →
          g2 s ≤ g2 (s + 1) ∧ g2 (s + 1) ≤ g2 s + 1 := by
        intro s hs0 hshi
        rw [show (0 : Int) + ((Sx - tmin).toNat : Int) = Sx - tmin by omega] at hshi
        set t : Int := Sx - s with ht
        have ht2 : Sx - (s + 1) = t - 1 := by omega
        have htlo : tmin + 1 ≤ t := by omega
        have ht1 : 2 ≤ t := by omega
        have hA0 : 0 ≤ 2 * E1 * Sy := by nlinarith
        constructor
        · -- g2 s ≤ g2 (s+1): (A + t)/(2t) ≤ (A + (t-1))/(2(t-1))
          show g2 s ≤ g2 (s + 1)
          rw [hg2]
          dsimp only
          rw [← ht, ht2]
          exact ediv_le_ediv_cross _ _ _ _ (by omega) (by omega) (by nlinarith)
        · -- g2 (s+1) ≤ g2 s + 1: (A + (t-1))/(2(t-1)) ≤ (A + t)/(2t) + 1
          show g2 (s + 1) ≤ g2 s + 1
          rw [hg2]
          dsimp only
          rw [← ht, ht2]
          have hplus : (2 * E1 * Sy + t) / (2 * t) + 1
              = (2 * E1 * Sy + t + 1 * (2 * t)) / (2 * t) := by
            rw [Int.add_mul_ediv_right _ _ (by omega : 2 * t ≠ 0)]
          rw [hplus]
          apply ediv_le_ediv_cross _ _ _ _ (by omega) (by omega)
          -- cross: (A + t - 1) * 2t ≤ (A + 3t) * 2(t-1) ⟸ E1*Sy ≤ t(t-1)
          have hq : E1 * Sy ≤ (t - 1) * t := by
            have h1 : E1 ≤ t - 1 := le_trans (le_trans (le_max_right _ _) (le_refl tmin)) (by omega)
            have h2 : Sy ≤ t := by
              have := le_max_left Sy E1
              omega
            nlinarith
          nlinarith
      have hg2_0 : g2 0 = (2 * E1 * Sy + Sx) / (2 * Sx) := by
        rw [hg2]; dsimp only; rw [show Sx - (0 : Int) = Sx by ring]
      have hg2_end : E2 ≤ g2 (0 + ((Sx - tmin).toNat : Int)) := by
        rw [hg2]
        dsimp only
        rw [show Sx - ((0 : Int) + ((Sx - tmin).toNat : Int)) = tmin by omega]
        rcases max_choice Sy E1 with h | h
        · -- tmin = Sy: g = (2*E1*Sy + Sy)/(2*Sy) = E1 ≥ E2
          rw [htmin, h, show 2 * E1 * Sy + Sy = Sy + E1 * (2 * Sy) by ring,
            half_div_eval Sy E1 hSy1]
          exact hE12
        · -- tmin = E1: g = (2*E1*Sy + E1)/(2*E1) = Sy ≥ E2
          rw [htmin, h, show 2 * E1 * Sy + E1 = E1 + Sy * (2 * E1) by ring,
            half_div_eval E1 Sy hE1]
          exact hSy
      obtain ⟨s, hs1, hs2, hs3⟩ := int_ivt g2 (Sx - tmin).toNat 0 hg2step E2
        (by rw [hg2_0]; omega) hg2_end
      refine ⟨Sx - s, ?_, ?_, by omega, hSy1, ?_⟩
      · rw [show (0 : Int) + ((Sx - tmin).toNat : Int) = Sx - tmin by omega] at hs2
        have := le_max_right Sy E1
        omega
      · rw [show (0 : Int) + ((Sx - tmin).toNat : Int) = Sx - tmin by omega] at hs2
        have := le_max_left Sy E1
        omega
      · rw [hg2] at hs3
        exact hs3

theorem covers_core (x y a b Sx Sy E1 E2 σ τ : Int)
    (hσ : σ = 1 ∨ σ = -1) (hτ : τ = 1 ∨ τ = -1)
    (ha : a = x + σ * E1) (hb : b = y + τ * E2)
    (hE1 : 1 ≤ E1) (hE20 : 0 ≤ E2) (hE12 : E2 ≤ E1)
    (hSx : E1 ≤ Sx) (hSy : E2 ≤ Sy) :
    ∃ dX dY : Int,
      ((dX = σ * Sx ∧ 0 ≤ τ * dY ∧ τ * dY ≤ Sy) ∨
       (dY = τ * Sy ∧ 0 ≤ σ * dX ∧ σ * dX ≤ Sx)) ∧
      (a, b) ∈ (bresenham (x, y) (x + dX, y + dY)).drop 1 := by
  have hSx1 : 1 ≤ Sx := le_trans hE1 hSx
  rcases sweep_exists E1 E2 Sx Sy hE1 hSx hE20 hE12 hSy with
    ⟨w, hw0, hwSy, hwSx, hwv⟩ | ⟨t, htE1, htSy, htSx, hSy1, htv⟩
  · -- column target: d = (x + σ*Sx, y + τ*w)
    refine ⟨σ * Sx, τ * w,
      Or.inl ⟨rfl, by rcases hτ with rfl | rfl <;> omega,
        by rcases hτ with rfl | rfl <;> omega⟩, ?_⟩
    have hne2 : x ≠ x + σ * Sx := by rcases hσ with rfl | rfl <;> omega
    have hsh2 : (y + τ * w - y).natAbs ≤ (x + σ * Sx - x).natAbs := by
      rcases hσ with rfl | rfl <;> rcases hτ with rfl | rfl <;> omega
    rw [bresenham_shallow x y (x + σ * Sx) (y + τ * w) hne2 hsh2]
    have hcx : ((x + σ * Sx - x).natAbs : Int) = Sx := by
      rcases hσ with rfl | rfl <;> omega
    have hcy : ((y + τ * w - y).natAbs : Int) = w := by
      rcases hτ with rfl | rfl <;> omega
    rw [hcx, hcy]
    have hsxA : (if x < x + σ * Sx then (1 : Int) else -1) = σ := by
      rcases hσ with rfl | rfl
      · rw [if_pos (by omega)]
      · rw [if_neg (by omega)]
    rw [hsxA]
    rw [intRange_cons (by omega : (0 : Int) < Sx + 1), List.map_cons,
      List.drop_one, List.tail_cons]
    rw [List.mem_map]
    refine ⟨E1, mem_intRange.mpr ⟨by omega, by omega⟩, ?_⟩
    dsimp only
    rw [hwv]
    rcases eq_or_lt_of_le hE20 with hE2z | hE2pos
    · rw [ha, hb, ← hE2z]
      norm_num
    · have hw1 : 1 ≤ w := by
        by_contra hw
        have hw0' : w = 0 := by omega
        rw [hw0', show 2 * E1 * (0 : Int) + Sx = Sx by ring,
          Int.ediv_eq_zero_of_lt (by omega) (by omega)] at hwv
        omega
      have hsyA : (if y < y + τ * w then (1 : Int) else -1) = τ := by
        rcases hτ with rfl | rfl
        · rw [if_pos (by omega)]
        · rw [if_neg (by omega)]
      rw [hsyA, ha, hb]
  · -- row target: d = (x + σ*t, y + τ*Sy)
    refine ⟨σ * t, τ * Sy,
      Or.inr ⟨rfl, by rcases hσ with rfl | rfl <;> omega,
        by rcases hσ with rfl | rfl <;> omega⟩, ?_⟩
    have hne2 : x ≠ x + σ * t := by rcases hσ with rfl | rfl <;> omega
    have hsh2 : (y + τ * Sy - y).natAbs ≤ (x + σ * t - x).natAbs := by
      rcases hσ with rfl | rfl <;> rcases hτ with rfl | rfl <;> omega
    rw [bresenham_shallow x y (x + σ * t) (y + τ * Sy) hne2 hsh2]
    have hcx : ((x + σ * t - x).natAbs : Int) = t := by
      rcases hσ with rfl | rfl <;> omega
    have hcy : ((y + τ * Sy - y).natAbs : Int) = Sy := by
      rcases hτ with rfl | rfl <;> omega
    rw [hcx, hcy]
    have hsxA : (if x < x + σ * t then (1 : Int) else -1) = σ := by
      rcases hσ with rfl | rfl
      · rw [if_pos (by omega)]
      · rw [if_neg (by omega)]
    have hsyA : (if y < y + τ * Sy then (1 : Int) else -1) = τ := by
      rcases hτ with rfl | rfl
      · rw [if_pos (by omega)]
      · rw [if_neg (by omega)]
    rw [hsxA, hsyA]
    rw [intRange_cons (by omega : (0 : Int) < t + 1), List.map_cons,
      List.drop_one, List.tail_cons]
    rw [List.mem_map]
    refine ⟨E1, mem_intRange.mpr ⟨by omega, by omega⟩, ?_⟩
    dsimp only
    rw [htv, ha, hb]

theorem mem_perimeterTargets_intro (minx miny maxx maxy dx dy : Int)
    (hx1 : minx ≤ dx) (hx2 : dx ≤ maxx) (hy1 : miny ≤ dy) (hy2 : dy ≤ maxy)
    (hedge : dx = minx ∨ dx = maxx ∨ dy = miny ∨ dy = maxy) :
    (dx, dy) ∈ perimeterTargets minx miny maxx maxy := by
  unfold perimeterTargets
  rw [List.mem_append]
  by_cases hb : dy = miny ∨ dy = maxy
  · left
    rw [List.mem_flatMap]
    refine ⟨dx, mem_intRange.mpr ⟨hx1, by omega⟩, ?_⟩
    rcases hb with rfl | rfl
    · exact List.mem_cons_self _ _
    · exact List.mem_cons_of_mem _ (List.mem_cons_self _ _)
  · right
    push_neg at hb
    rw [List.mem_flatMap]
    refine ⟨dy, mem_intRange.mpr ⟨by omega, by omega⟩, ?_⟩
    have hedge2 : dx = minx ∨ dx = maxx := by tauto
    rcases hedge2 with rfl | rfl
    · exact List.mem_cons_self _ _
    · exact List.mem_cons_of_mem _ (List.mem_cons_self _ _)

theorem perimeter_ray_covers (minx miny maxx maxy x y a b : Int)
    (hx1 : minx ≤ x) (hx2 : x ≤ maxx) (hy1 : miny ≤ y) (hy2 : y ≤ maxy)
    (ha1 : minx ≤ a) (ha2 : a ≤ maxx) (hb1 : miny ≤ b) (hb2 : b ≤ maxy)
    (hne : ¬(a = x ∧ b = y)) :
    ∃ d ∈ perimeterTargets minx miny maxx maxy,
      (a, b) ∈ (bresenham (x, y) d).drop 1 := by
  by_cases hsh : (b - y).natAbs ≤ (a - x).natAbs
  · -- shallow octants: the major axis is horizontal
    have hax : a ≠ x := by
      intro h
      exact hne ⟨h, by omega⟩
    set σ : Int := if x < a then 1 else -1 with hσdef
    set τ : Int := if y < b then 1 else -1 with hτdef
    set Sx : Int := if x < a then maxx - x else x - minx with hSxdef
    set Sy : Int := if y < b then maxy - y else y - miny with hSydef
    have hσ : σ = 1 ∨ σ = -1 := by rw [hσdef]; split <;> simp
    have hτ : τ = 1 ∨ τ = -1 := by rw [hτdef]; split <;> simp
    have ha' : a = x + σ * ((a - x).natAbs : Int) := by rw [hσdef]; split <;> omega
    have hb' : b = y + τ * ((b - y).natAbs : Int) := by rw [hτdef]; split <;> omega
    have hSxE : ((a - x).natAbs : Int) ≤ Sx := by rw [hSxdef]; split <;> omega
    have hSyE : ((b - y).natAbs : Int) ≤ Sy := by rw [hSydef]; split <;> omega
    obtain ⟨dX, dY, hd, hmem⟩ := covers_core x y a b Sx Sy
      ((a - x).natAbs : Int) ((b - y).natAbs : Int) σ τ hσ hτ ha' hb'
      (by omega) (by omega) (by omega) hSxE hSyE
    refine ⟨(x + dX, y + dY), ?_, hmem⟩
    rcases hd with ⟨hdx, hdy0, hdy1⟩ | ⟨hdy, hdx0, hdx1⟩
    · have hdxB : x + dX = minx ∨ x + dX = maxx := by
        rw [hdx, hσdef, hSxdef]
        by_cases hxa : x < a
        · right; rw [if_pos hxa, if_pos hxa]; ring
        · left; rw [if_neg hxa, if_neg hxa]; ring
      have hdyB : miny ≤ y + dY ∧ y + dY ≤ maxy := by
        rw [hτdef] at hdy0 hdy1
        rw [hSydef] at hdy1
        by_cases hyb : y < b
        · rw [if_pos hyb] at hdy0 hdy1
          constructor <;> omega
        · rw [if_neg hyb] at hdy0 hdy1
          constructor <;> omega
      exact mem_perimeterTargets_intro minx miny maxx maxy (x + dX) (y + dY)
        (by rcases hdxB with h | h <;> omega) (by rcases hdxB with h | h <;> omega)
        hdyB.1 hdyB.2
        (by rcases hdxB with h | h
            · exact Or.inl h
            · exact Or.inr (Or.inl h))
    · have hdyB : y + dY = miny ∨ y + dY = maxy := by
        rw [hdy, hτdef, hSydef]
        by_cases hyb : y < b
        · right; rw [if_pos hyb, if_pos hyb]; ring
        · left; rw [if_neg hyb, if_neg hyb]; ring
      have hdxB : minx ≤ x + dX ∧ x + dX ≤ maxx := by
        rw [hσdef] at hdx0 hdx1
        rw [hSxdef] at hdx1
        by_cases hxa : x < a
        · rw [if_pos hxa] at hdx0 hdx1
          constructor <;> omega
        · rw [if_neg hxa] at hdx0 hdx1
          constructor <;> omega
      exact mem_perimeterTargets_intro minx miny maxx maxy (x + dX) (y + dY)
        hdxB.1 hdxB.2
        (by rcases hdyB with h | h <;> omega) (by rcases hdyB with h | h <;> omega)
        (by rcases hdyB with h | h
            · exact Or.inr (Or.inr (Or.inl h))
            · exact Or.inr (Or.inr (Or.inr h)))
  · -- steep octants: reduce to the shallow case through the swap symmetry
    push_neg at hsh
    have hby : b ≠ y := by
      intro h
      rw [h] at hsh
      omega
    set σ : Int := if y < b then 1 else -1 with hσdef
    set τ : Int := if x < a then 1 else -1 with hτdef
    set S1 : Int := if y < b then maxy - y else y - miny with hS1def
    set S2 : Int := if x < a then maxx - x else x - minx with hS2def
    have hσ : σ = 1 ∨ σ = -1 := by rw [hσdef]; split <;> simp
    have hτ : τ = 1 ∨ τ = -1 := by rw [hτdef]; split <;> simp
    have hb' : b = y + σ * ((b - y).natAbs : Int) := by rw [hσdef]; split <;> omega
    have ha' : a = x + τ * ((a - x).natAbs : Int) := by rw [hτdef]; split <;> omega
    have hS1E : ((b - y).natAbs : Int) ≤ S1 := by rw [hS1def]; split <;> omega
    have hS2E : ((a - x).natAbs : Int) ≤ S2 := by rw [hS2def]; split <;> omega
    obtain ⟨dX, dY, hd, hmem⟩ := covers_core y x b a S1 S2
      ((b - y).natAbs : Int) ((a - x).natAbs : Int) σ τ hσ hτ hb' ha'
      (by omega) (by omega) (by omega) hS1E hS2E
    have hconv : (a, b) ∈ (bresenham (x, y) (x + dY, y + dX)).drop 1 := by
      rw [bresenham_swap (x, y) (x + dY, y + dX)]
      dsimp only
      rw [← List.map_drop]
      exact List.mem_map.mpr ⟨(b, a), hmem, rfl⟩
    refine ⟨(x + dY, y + dX), ?_, hconv⟩
    rcases hd with ⟨hdx, hdy0, hdy1⟩ | ⟨hdy, hdx0, hdx1⟩
    · -- dX = σ*S1: the target row is miny or maxy
      have hdxB : y + dX = miny ∨ y + dX = maxy := by
        rw [hdx, hσdef, hS1def]
        by_cases hyb : y < b
        · right; rw [if_pos hyb, if_pos hyb]; ring
        · left; rw [if_neg hyb, if_neg hyb]; ring
      have hdyB : minx ≤ x + dY ∧ x + dY ≤ maxx := by
        rw [hτdef] at hdy0 hdy1
        rw [hS2def] at hdy1
        by_cases hxa : x < a
        · rw [if_pos hxa] at hdy0 hdy1
          constructor <;> omega
        · rw [if_neg hxa] at hdy0 hdy1
          constructor <;> omega
      exact mem_perimeterTargets_intro minx miny maxx maxy (x + dY) (y + dX)
        hdyB.1 hdyB.2
        (by rcases hdxB with h | h <;> omega) (by rcases hdxB with h | h <;> omega)
        (by rcases hdxB with h | h
            · exact Or.inr (Or.inr (Or.inl h))
            · exact Or.inr (Or.inr (Or.inr h)))
    · -- dY = τ*S2: the target column is minx or maxx
      have hdyB : x + dY = minx ∨ x + dY = maxx := by
        rw [hdy, hτdef, hS2def]
        by_cases hxa : x < a
        · right; rw [if_pos hxa, if_pos hxa]; ring
        · left; rw [if_neg hxa, if_neg hxa]; ring
      have hdxB : miny ≤ y + dX ∧ y + dX ≤ maxy := by
        rw [hσdef] at hdx0 hdx1
        rw [hS1def] at hdx1
        by_cases hyb : y < b
        · rw [if_pos hyb] at hdx0 hdx1
          constructor <;> omega
        · rw [if_neg hyb] at hdx0 hdx1
          constructor <;> omega
      exact mem_perimeterTargets_intro minx miny maxx maxy (x + dY) (y + dX)
        (by rcases hdyB with h | h <;> omega) (by rcases hdyB with h | h <;> omega)
        hdxB.1 hdxB.2
        (by rcases hdyB with h | h
            · exact Or.inl h
            · exact Or.inr (Or.inl h))

/-! ## Master characterization of `calculateFovVision` -/

/-- Every cell marked visible by a sweep with `radius >= 1` is the origin,
or a wall (non-transparent flat index), or carries the flat index of an
in-bounds cell within the radius. -/
theorem calcFovVision_char (t : Int → Bool) (W H x y r : Int) (v : Int → Bool)
    (hr : 1 ≤ r) (h : calculateFovVision t W H x y r = some v) :
    (0 ≤ x ∧ x < W ∧ 0 ≤ y ∧ y < H) ∧
    ∀ i, v i = true →
      i = x + y * W ∨ t i = false ∨
      ∃ p : Int × Int, 0 ≤ p.1 ∧ p.1 < W ∧ 0 ≤ p.2 ∧ p.2 < H ∧
        p.1 + p.2 * W = i ∧ (p.1 - x) ^ 2 + (p.2 - y) ^ 2 ≤ r ^ 2 := by
  rw [calculateFovVision] at h
  dsimp only at h
  split at h
  case isTrue hoob => exact absurd h (by simp)
  case isFalse hoob =>
    rw [if_neg (by omega : ¬ r < 1)] at h
    refine ⟨by omega, ?_⟩
    intro i hi
    split at h
    case isTrue hdeg =>
      rw [← Option.some.inj h] at hi
      unfold setIdx at hi
      split at hi
      · exact Or.inl (by assumption)
      · cases hi
    case isFalse hdeg =>
      rw [← Option.some.inj h] at hi
      rcases postPass_char _ _ _ _ _ _ _ _ _ _ hi with h4 | ⟨p, hpi, hpt⟩
      rotate_left
      · exact Or.inr (Or.inl (hpi ▸ hpt))
      rcases postPass_char _ _ _ _ _ _ _ _ _ _ h4 with h3 | ⟨p, hpi, hpt⟩
      rotate_left
      · exact Or.inr (Or.inl (hpi ▸ hpt))
      rcases postPass_char _ _ _ _ _ _ _ _ _ _ h3 with h2 | ⟨p, hpi, hpt⟩
      rotate_left
      · exact Or.inr (Or.inl (hpi ▸ hpt))
      rcases postPass_char _ _ _ _ _ _ _ _ _ _ h2 with h1 | ⟨p, hpi, hpt⟩
      rotate_left
      · exact Or.inr (Or.inl (hpi ▸ hpt))
      have hrs : ¬ (r ^ 2 = 0) := by
        have : 0 < r ^ 2 := pow_pos (by omega) 2
        omega
      have hfold := foldl_char
        (fun v d => rayWalk (fun p : Int × Int => p.1 + p.2 * W)
          (fun p : Int × Int => (p.1 - x) ^ 2 + (p.2 - y) ^ 2)
          (fun p : Int × Int => t (p.1 + p.2 * W)) (r ^ 2) v ((bresenham (x, y) d).drop 1))
        (fun j => ∃ d ∈ perimeterTargets (max (x - r) 0) (max (y - r) 0)
            (min (x + r) (W - 1)) (min (y + r) (H - 1)),
          ∃ q ∈ (bresenham (x, y) d).drop 1,
            q.1 + q.2 * W = j ∧
            ((q.1 - x) ^ 2 + (q.2 - y) ^ 2 ≤ r ^ 2 ∨ r ^ 2 = 0))
        (perimeterTargets (max (x - r) 0) (max (y - r) 0)
          (min (x + r) (W - 1)) (min (y + r) (H - 1)))
        (by
          intro v0 d hd j hj
          rcases rayWalk_char _ _ _ _ _ _ _ hj with h0 | ⟨q, hq, hqi, hqd⟩
          · exact Or.inl h0
          · exact Or.inr ⟨d, hd, q, hq, hqi, hqd⟩)
        _ i h1
      rcases hfold with h0 | ⟨d, hd, q, hq, hqi, hqd⟩
      · unfold setIdx at h0
        split at h0
        · exact Or.inl (by assumption)
        · cases h0
      · have hdb := mem_perimeterTargets (by omega) (by omega) hd
        have hqb := bresenham_box (x, y) d q (List.drop_subset 1 _ hq)
        refine Or.inr (Or.inr ⟨q, ?_, ?_, ?_, ?_, hqi, ?_⟩)
        · simp only at hqb; omega
        · simp only at hqb; omega
        · simp only at hqb; omega
        · simp only at hqb; omega
        · rcases hqd with h' | h'
          · exact h'
          · exact absurd h' hrs

/-! ## Helper facts about the query surface -/

theorem is_bounded_iff {W H x y : Int} :
    is_bounded W H x y = true ↔ (x < 0 ∨ y < 0 ∨ x ≥ W ∨ y ≥ H) := by
  unfold is_bounded
  simp only [Bool.or_eq_true, decide_eq_true_eq]
  tauto

/-- Unfolding lemma: a successful core computation determines the result
of `FovMap::calculate_fov`. -/
theorem calculate_fov_ok (m : FovMap) (x y r : Int) (v : Int → Bool)
    (h : calculateFovVision m.transparent m.width m.height x y r = some v) :
    m.calculate_fov x y r = Except.ok { m with vision := v, lastOrigin := (x, y) } := by
  unfold FovMap.calculate_fov
  rw [h]

/-! ## Positive marking lemmas: on an open grid every disc cell is visible -/

theorem foldl_mono {α : Type} (f : (Int → Bool) → α → (Int → Bool))
    (hmono : ∀ v a j, v j = true → f v a j = true) :
    ∀ (l : List α) (v : Int → Bool) (j : Int), v j = true → l.foldl f v j = true := by
  intro l
  induction l with
  | nil => intro v j h; exact h
  | cons q rest ih => intro v j h; exact ih (f v q) j (hmono v q j h)

theorem foldl_marks {α : Type} (f : (Int → Bool) → α → (Int → Bool)) (i : Int)
    (hmono : ∀ v a j, v j = true → f v a j = true) :
    ∀ (l : List α) (d : α), d ∈ l → (∀ v0, f v0 d i = true) →
      ∀ v, l.foldl f v i = true := by
  intro l
  induction l with
  | nil => intro d hd _ _; cases hd
  | cons q rest ih =>
    intro d hd hstep v
    rcases List.mem_cons.mp hd with rfl | hdr
    · exact foldl_mono f hmono rest (f v d) i (hstep v)
    · exact ih d hdr hstep (f v q)

theorem walkedCells_all (transp : Int × Int → Bool) :
    ∀ l : List (Int × Int), (∀ p ∈ l, transp p = true) →
      walkedCells transp l = l := by
  intro l
  induction l with
  | nil => intro _; rfl
  | cons p rest ih =>
    intro hall
    simp only [walkedCells]
    rw [if_pos (hall p (List.mem_cons_self p rest)),
      ih (fun q hq => hall q (List.mem_cons_of_mem p hq))]

theorem postCell_mono (index : Int × Int → Int) (transp : Int × Int → Bool)
    (dx dy : Int) (v : Int → Bool) (x y i : Int) (h : v i = true) :
    postCell index transp dx dy v x y i = true := by
  unfold postCell
  split
  · dsimp only
    split
    · exact setIdx_true_mono v _ i h
    · exact h
  · exact h

theorem postPass_mono (index : Int × Int → Int) (transp : Int × Int → Bool)
    (minx miny maxx maxy dx dy : Int) (v : Int → Bool) (i : Int)
    (h : v i = true) :
    postPass index transp minx miny maxx maxy dx dy v i = true := by
  unfold postPass
  refine foldl_mono _ ?_ _ v i h
  intro vx xx j hj
  exact foldl_mono _ (fun vy yy k hk => postCell_mono index transp dx dy vy xx yy k hk)
    _ vx j hj

/-- The positive half of the visibility analysis: on a map with no opaque
cells, with `radius ≥ 1` and a grid at least `2 × 2` (so the clipped
bounding square is never degenerate), every in-bounds cell of the radius
disc ends up visible: some perimeter ray passes through it
(`perimeter_ray_covers`), nothing blocks the walk, and every later walk
and post-processing pass preserves the mark. -/
theorem calcFovVision_covers (t : Int → Bool) (W H x y r : Int) (v : Int → Bool)
    (hopen : ∀ i, t i = true) (hr : 1 ≤ r) (hW : 2 ≤ W) (hH : 2 ≤ H)
    (h : calculateFovVision t W H x y r = some v)
    (a b : Int) (ha0 : 0 ≤ a) (haW : a < W) (hb0 : 0 ≤ b) (hbH : b < H)
    (hd : (a - x) ^ 2 + (b - y) ^ 2 ≤ r ^ 2) :
    v (a + b * W) = true := by
  rw [calculateFovVision] at h
  dsimp only at h
  split at h
  case isTrue hoob => exact absurd h (by simp)
  case isFalse hoob =>
    push_neg at hoob
    obtain ⟨hx0, hy0, hxW, hyH⟩ := hoob
    rw [if_neg (by omega : ¬ r < 1)] at h
    rw [if_neg (by omega :
      ¬ (min (x + r) (W - 1) - max (x - r) 0 = 0 ∨
         min (y + r) (H - 1) - max (y - r) 0 = 0))] at h
    rw [← Option.some.inj h]
    by_cases horig : a = x ∧ b = y
    · obtain ⟨rfl, rfl⟩ := horig
      apply postPass_mono
      apply postPass_mono
      apply postPass_mono
      apply postPass_mono
      apply foldl_mono _ (fun v0 p j hj => rayWalk_mono _ _ _ _ _ v0 j hj)
      exact setIdx_self _ _ _
    · have hax2 : (a - x) ^ 2 ≤ r ^ 2 := by nlinarith [sq_nonneg (b - y)]
      have hby2 : (b - y) ^ 2 ≤ r ^ 2 := by nlinarith [sq_nonneg (a - x)]
      have habx : x - r ≤ a ∧ a ≤ x + r := by
        constructor <;> nlinarith [sq_nonneg (a - x + r), sq_nonneg (a - x - r)]
      have haby : y - r ≤ b ∧ b ≤ y + r := by
        constructor <;> nlinarith [sq_nonneg (b - y + r), sq_nonneg (b - y - r)]
      obtain ⟨d, hdmem, hdray⟩ := perimeter_ray_covers (max (x - r) 0) (max (y - r) 0)
        (min (x + r) (W - 1)) (min (y + r) (H - 1)) x y a b
        (by omega) (by omega) (by omega) (by omega)
        (by omega) (by omega) (by omega) (by omega) horig
      apply postPass_mono
      apply postPass_mono
      apply postPass_mono
      apply postPass_mono
      apply foldl_marks _ (a + b * W)
        (fun v0 p j hj => rayWalk_mono _ _ _ _ _ v0 j hj) _ d hdmem
      intro v0
      have hwalk : walkedCells (fun p => t (p.1 + p.2 * W)) ((bresenham (x, y) d).drop 1)
          = (bresenham (x, y) d).drop 1 :=
        walkedCells_all _ _ (fun p _ => hopen _)
      exact rayWalk_marks (fun p : Int × Int => p.1 + p.2 * W)
        (fun p : Int × Int => (p.1 - x) ^ 2 + (p.2 - y) ^ 2)
        (fun p : Int × Int => t (p.1 + p.2 * W)) (r ^ 2)
        ((bresenham (x, y) d).drop 1) v0 (a, b)
        (by rw [hwalk]; exact hdray) (Or.inl hd)

/-! ## Claim theorems -/

/-- C1: the claim says `field_of_view(map, x, y, r)` always returns a list
containing the origin `(x, y)`, and `calculate_fov` always leaves the
origin visible.  The second half holds, but the first fails: on a fully
transparent 10×10 map with origin `(5, 5)` and radius `2`, the returned
list does not contain `(5, 5)` (source line 272 indexes the buffer but
never assigns `true`, despite its own comment "Set origin as visible"),
while `FovMap::calculate_fov` at the same input does mark the origin. -/
theorem c1_field_of_view_omits_origin :
    (5, 5) ∉ (field_of_view 10 10 (fun _ _ => true) 5 5 2).toOption.getD [] ∧
    (6, 5) ∈ (field_of_view 10 10 (fun _ _ => true) 5 5 2).toOption.getD [] ∧
    fov10.calculate_fov 5 5 2 = Except.ok fov10At552 ∧
    fov10At552.vision (5 + 5 * 10) = true :=
  ⟨by decide, by decide,
    calculate_fov_ok fov10 5 5 2 vision552 (Option.some_get _).symm,
    by decide⟩

/-- C5: the claim says construction fails whenever either dimension is
non-positive.  The dimension check tests `width <= 0 && height <= 0` — a
conjunction — so it only fires when both dimensions are non-positive
(e.g. `new(0, 0)`).  With a negative dimension and a positive one the
allocation of `vec![true; (width * height) as usize]` still panics
(capacity overflow on the huge cast of the negative product), but with
one dimension zero and the other positive — `new(0, 5)`, `new(5, 0)`,
`SampleMap::new(0, 5)` — nothing fails and a degenerate usable instance
is produced, contradicting the claim and the code's own panic message. -/
theorem c5_new_accepts_nonpositive_dimension :
    (∃ m, FovMap.new 0 5 = Except.ok m) ∧
    (∃ m, FovMap.new 5 0 = Except.ok m) ∧
    (∃ sm, SampleMap.new 0 5 = Except.ok sm) ∧
    FovMap.new 0 0 = Except.error (FovError.badDimensions 0 0) ∧
    SampleMap.new 0 0 = Except.error (FovError.badDimensions 0 0) ∧
    FovMap.new (-3) 7 = Except.error (FovError.capacityOverflow (-21)) :=
  ⟨⟨_, rfl⟩, ⟨_, rfl⟩, ⟨_, rfl⟩, rfl, rfl, rfl⟩

/-- C6: the claim says `is_in_bounds(x, y)` is true iff `0 <= x < W` and
`0 <= y < H`.  The code tests `y > -0`, i.e. `y > 0`, so every in-bounds
coordinate with `y = 0` is wrongly rejected: on a 10×10 map,
`is_in_bounds(0, 0)` and `is_in_bounds(5, 0)` return `false` although
`assert_in_bounds` (exercised here through `is_transparent`) accepts the
same coordinates; `is_in_bounds(0, 1)` is `true` as expected. -/
theorem c6_is_in_bounds_rejects_y_eq_zero :
    fov10.is_in_bounds 0 0 = false ∧
    ((0 : Int) ≥ 0 ∧ (0 : Int) < 10) ∧
    fov10.is_transparent 0 0 = Except.ok true ∧
    fov10.is_in_bounds 5 0 = false ∧
    fov10.is_in_bounds 0 1 = true :=
  ⟨by decide, by decide, rfl, by decide, by decide⟩

/-- C3 counterexample: on a fully transparent 1×5 grid the clipped
bounding square is degenerate (`maxx - minx = 0`), so
`calculate_fov(0, 2, 1)` returns after marking only the origin; the
in-bounds cell `(0, 1)` has squared distance `1 <= 1^2` yet is not
visible, refuting the claimed equality of the visible set with the
radius disc for every grid. -/
theorem c3_degenerate_grid_counterexample :
    fov1x5.calculate_fov 0 2 1 = Except.ok fov1x5At021 ∧
    fov1x5At021.is_in_fov 0 1 = Except.ok false ∧
    ((0 : Int) ≤ 0 ∧ (0 : Int) < 1 ∧ (0 : Int) ≤ 1 ∧ (1 : Int) < 5) ∧
    ((0 : Int) - 0) ^ 2 + ((1 : Int) - 2) ^ 2 ≤ 1 ^ 2 :=
  ⟨calculate_fov_ok fov1x5 0 2 1 vision021 (Option.some_get _).symm,
    rfl, by decide, by decide⟩

/-- C2: during a ray walk (`cast_ray_and_mark_visible`), the walk
processes exactly the cells up to and including the first
non-transparent cell (`walkedCells`); every processed cell within the
radius — including a final non-transparent one — is marked visible, and
the flag of any flat index not belonging to a processed cell is
unchanged, so nothing behind the blocking cell is marked by that ray. -/
theorem c2_ray_walk_marks_and_stops (m : FovMap) (origin destination : Int × Int)
    (radius_square : Int) :
    ((m.cast_ray_and_mark_visible origin destination radius_square).vision
        = rayWalk (fun p : Int × Int => p.1 + p.2 * m.width)
            (fun p : Int × Int => (p.1 - origin.1) ^ 2 + (p.2 - origin.2) ^ 2)
            (fun p : Int × Int => m.transparent (p.1 + p.2 * m.width)) radius_square
            m.vision
            (walkedCells (fun p : Int × Int => m.transparent (p.1 + p.2 * m.width))
              ((bresenham origin destination).drop 1))) ∧
    (∀ p ∈ walkedCells (fun p : Int × Int => m.transparent (p.1 + p.2 * m.width))
        ((bresenham origin destination).drop 1),
      (p.1 - origin.1) ^ 2 + (p.2 - origin.2) ^ 2 ≤ radius_square →
      (m.cast_ray_and_mark_visible origin destination radius_square).vision
        (p.1 + p.2 * m.width) = true) ∧
    (∀ i : Int,
      (∀ p ∈ walkedCells (fun p : Int × Int => m.transparent (p.1 + p.2 * m.width))
        ((bresenham origin destination).drop 1), p.1 + p.2 * m.width ≠ i) →
      (m.cast_ray_and_mark_visible origin destination radius_square).vision i
        = m.vision i) := by
  unfold FovMap.cast_ray_and_mark_visible
  dsimp only
  refine ⟨?_, ?_, ?_⟩
  · exact rayWalk_eq_walkedCells _ _ _ _ _ _
  · intro p hp hd
    exact rayWalk_marks _ _ _ _ _ _ p hp (Or.inl hd)
  · intro i hni
    rw [rayWalk_eq_walkedCells]
    exact rayWalk_frame _ _ _ _ _ _ i hni

/-- Witness for C2: on a 10×10 map whose only wall is `(5, 3)` (flat
index 35), the ray from `(3, 3)` to `(8, 3)` with radius² `36` marks the
wall cell itself and leaves the cell `(6, 3)` (flat index 36) behind the
wall unmarked. -/
theorem c2_ray_walk_witness :
    (wallMap.cast_ray_and_mark_visible (3, 3) (8, 3) 36).vision 35 = true ∧
    (wallMap.cast_ray_and_mark_visible (3, 3) (8, 3) 36).vision 36 = false := by
  constructor
  · exact (c2_ray_walk_marks_and_stops wallMap (3, 3) (8, 3) 36).2.1 (5, 3)
      (by decide) (by decide)
  · exact (c2_ray_walk_marks_and_stops wallMap (3, 3) (8, 3) 36).2.2 36 (by decide)

/-- C4: with any radius `r < 1` (zero or negative) and an in-bounds
origin, `calculate_fov` marks exactly the origin cell and no other
in-bounds cell, and `field_of_view` returns exactly the one-element list
`[(x, y)]`, for every transparency state. -/
theorem c4_small_radius_only_origin (m : FovMap) (x y radius : Int)
    (t2 : Int → Int → Bool) (hr : radius < 1)
    (hx : 0 ≤ x) (hxW : x < m.width) (hy : 0 ≤ y) (hyH : y < m.height) :
    (∃ m', m.calculate_fov x y radius = Except.ok m' ∧
      ∀ a b : Int, 0 ≤ a → a < m.width → 0 ≤ b → b < m.height →
        (m'.vision (a + b * m.width) = true ↔ a = x ∧ b = y)) ∧
    field_of_view m.width m.height t2 x y radius = Except.ok [(x, y)] := by
  constructor
  · refine ⟨_, calculate_fov_ok m x y radius
      (setIdx (fun _ => false) (x + y * m.width) true) ?_, ?_⟩
    · rw [calculateFovVision]
      dsimp only
      rw [if_neg (by omega), if_pos hr]
    · intro a b ha haW hb hbH
      dsimp only
      constructor
      · intro hv
        unfold setIdx at hv
        split at hv
        case isTrue heq => exact flatIndex_inj ha haW hx hxW heq
        case isFalse => cases hv
      · rintro ⟨rfl, rfl⟩
        exact setIdx_self _ _ _
  · rw [field_of_view]
    dsimp only
    rw [if_neg (by rw [is_bounded_iff]; omega), if_pos hr]

/-- Witness for C4: `field_of_view` on a 10×10 grid at origin `(5, 5)`
with radius `0` returns exactly `[(5, 5)]`. -/
theorem c4_small_radius_only_origin_witness :
    field_of_view 10 10 (fun _ _ => true) 5 5 0 = Except.ok [(5, 5)] :=
  (c4_small_radius_only_origin fov10 5 5 0 (fun _ _ => true) (by decide)
    (by decide) (by decide) (by decide) (by decide)).2

/-- C7 amended: every `FovMap` coordinate-accepting accessor
(`is_transparent`, `set_transparent`, `is_in_fov`, `calculate_fov`)
called out of bounds fails immediately with the panic payload citing the
valid range and the offending coordinates — but `SampleMap::set_transparent`
performs no bounds check (see the counterexample). -/
theorem c7_fovmap_accessors_fail_out_of_bounds (m : FovMap) (x y : Int)
    (b : Bool) (radius : Int) (hb : m.boundsViolation x y) :
    m.is_transparent x y = Except.error (FovError.outOfBounds m.width m.height x y) ∧
    m.set_transparent x y b = Except.error (FovError.outOfBounds m.width m.height x y) ∧
    m.is_in_fov x y = Except.error (FovError.outOfBounds m.width m.height x y) ∧
    m.calculate_fov x y radius = Except.error (FovError.outOfBounds m.width m.height x y) := by
  refine ⟨?_, ?_, ?_, ?_⟩
  · unfold FovMap.is_transparent
    rw [if_pos hb]
  · unfold FovMap.set_transparent
    rw [if_pos hb]
  · unfold FovMap.is_in_fov
    rw [if_pos hb]
  · unfold FovMap.calculate_fov calculateFovVision
    dsimp only
    unfold FovMap.boundsViolation at hb
    rw [if_pos hb]

/-- Witness for C7: on a 10×10 map, every accessor called at `(-10, 15)`
fails with the payload citing the range `(10, 10)` and the offending
coordinates, matching the repository's own panic test. -/
theorem c7_fovmap_accessors_fail_witness :
    fov10.is_transparent (-10) 15 = Except.error (FovError.outOfBounds 10 10 (-10) 15) ∧
    fov10.set_transparent (-10) 15 false
      = Except.error (FovError.outOfBounds 10 10 (-10) 15) ∧
    fov10.is_in_fov (-10) 15 = Except.error (FovError.outOfBounds 10 10 (-10) 15) ∧
    fov10.calculate_fov (-10) 15 5 = Except.error (FovError.outOfBounds 10 10 (-10) 15) :=
  c7_fovmap_accessors_fail_out_of_bounds fov10 (-10) 15 false 5 (by decide)

/-- C7 counterexample: `SampleMap::set_transparent(10, 0, false)` on a
10×10 map does not fail although `x = 10` is out of range; it silently
writes flat index 10, which is the cell `(0, 1)` — a different cell. -/
theorem c7_sample_set_transparent_counterexample :
    (∃ sm', sample10.set_transparent 10 0 false = some sm' ∧
      sm'.transparent (0 + 1 * 10) = false) ∧
    sample10.transparent (0 + 1 * 10) = true ∧
    ¬ ((10 : Int) < 10) :=
  ⟨⟨{ sample10 with
      transparent := setIdx sample10.transparent (10 + 0 * 10) false },
    rfl, by decide⟩, rfl, by decide⟩

/-- C8: `calculate_fov` is idempotent — recomputing with the same
arguments from the state a successful computation produced yields
exactly that same state again (the vision buffer is fully reset and
recomputed from the unchanged transparency buffer and dimensions). -/
theorem c8_calculate_fov_idempotent (m : FovMap) (x y radius : Int)
    (m' : FovMap) (h : m.calculate_fov x y radius = Except.ok m') :
    m'.calculate_fov x y radius = Except.ok m' := by
  unfold FovMap.calculate_fov at h ⊢
  split at h
  · exact absurd h (by simp)
  · rename_i v heq
    rw [← Except.ok.inj h]
    dsimp only
    rw [heq]

/-- Witness for C8: recomputing `calculate_fov(5, 5, 0)` from the state
it produced returns that state unchanged. -/
theorem c8_calculate_fov_idempotent_witness :
    fov10AtRadius0.calculate_fov 5 5 0 = Except.ok fov10AtRadius0 :=
  c8_calculate_fov_idempotent fov10 5 5 0 fov10AtRadius0 rfl

/-- C9: a visibility computation never mutates the transparency state:
both `FovMap::calculate_fov` and `SampleMap::calculate_fov` (which calls
`field_of_view`) leave the transparency buffer, width and height of the
map exactly as they were. -/
theorem c9_preserves_transparency_and_dims (m : FovMap) (sm : SampleMap)
    (x y radius : Int) :
    (∀ m', m.calculate_fov x y radius = Except.ok m' →
      m'.transparent = m.transparent ∧ m'.width = m.width ∧ m'.height = m.height) ∧
    (∀ sm', sm.calculate_fov x y radius = Except.ok sm' →
      sm'.transparent = sm.transparent ∧ sm'.width = sm.width ∧ sm'.height = sm.height) := by
  constructor
  · intro m' h
    unfold FovMap.calculate_fov at h
    split at h
    · exact absurd h (by simp)
    · rw [← Except.ok.inj h]
      exact ⟨rfl, rfl, rfl⟩
  · intro sm' h
    unfold SampleMap.calculate_fov at h
    split at h
    · exact absurd h (by simp)
    · rw [← Except.ok.inj h]
      exact ⟨rfl, rfl, rfl⟩

/-- Witness for C9: the state after `fov10.calculate_fov 5 5 0` keeps the
transparency buffer and the dimensions of `fov10`. -/
theorem c9_preserves_transparency_witness :
    fov10AtRadius0.transparent = fov10.transparent ∧
    fov10AtRadius0.width = fov10.width ∧ fov10AtRadius0.height = fov10.height :=
  (c9_preserves_transparency_and_dims fov10 sample10 5 5 0).1 fov10AtRadius0 rfl

/-- C10: after `calculate_fov(x, y, r)` with `r >= 1`, every transparent
cell other than the origin that is marked visible lies within the
radius: its squared distance from the origin is at most `r^2`.  (Only
non-transparent cells, promoted by the diagonal post-processor, can ever
be visible beyond the radius.) -/
theorem c10_transparent_visible_within_radius (m : FovMap) (x y radius : Int)
    (m' : FovMap) (hr : 1 ≤ radius)
    (h : m.calculate_fov x y radius = Except.ok m') :
    ∀ a b : Int, 0 ≤ a → a < m.width → 0 ≤ b → b < m.height →
      m.transparent (a + b * m.width) = true → ¬(a = x ∧ b = y) →
      m'.vision (a + b * m.width) = true →
      (a - x) ^ 2 + (b - y) ^ 2 ≤ radius ^ 2 := by
  unfold FovMap.calculate_fov at h
  split at h
  · exact absurd h (by simp)
  · rename_i v heq
    rw [← Except.ok.inj h]
    dsimp only
    intro a b ha haW hb hbH htr hne hvis
    obtain ⟨⟨hx0, hxW, hy0, hyH⟩, hchar⟩ :=
      calcFovVision_char m.transparent m.width m.height x y radius v hr heq
    rcases hchar _ hvis with hio | hwall | ⟨p, hp0, hpW, hp1, hpH, hpi, hpd⟩
    · exact absurd (flatIndex_inj ha haW hx0 hxW hio) hne
    · rw [htr] at hwall
      cases hwall
    · obtain ⟨h1, h2⟩ := flatIndex_inj hp0 hpW ha haW hpi
      rw [h1, h2] at hpd
      exact hpd

/-- Witness for C10: the transparent cell `(6, 5)` visible after
`fov10.calculate_fov 5 5 2` lies within the radius. -/
theorem c10_transparent_visible_within_radius_witness :
    ((6 : Int) - 5) ^ 2 + ((5 : Int) - 5) ^ 2 ≤ (2 : Int) ^ 2 :=
  c10_transparent_visible_within_radius fov10 5 5 2 fov10At552 (by norm_num)
    (calculate_fov_ok fov10 5 5 2 vision552 (Option.some_get _).symm)
    6 5 (by decide) (by decide) (by decide) (by decide) rfl (by decide) (by decide)

/-- C3 amended: on a grid of width and height at least `2` with no
non-transparent cells, after `calculate_fov` with radius `r ≥ 1`
succeeds, an in-bounds cell `(a, b)` is visible exactly when
`(a-x)² + (b-y)² ≤ r²` — the visible set is precisely the radius disc
intersected with the grid, as the claim says.  The claimed equality
fails only on degenerate grids (width or height `1`), where the clipped
bounding square collapses and only the origin is visible — see the
counterexample. -/
theorem c3_open_grid_visible_set (m : FovMap) (x y radius : Int) (m' : FovMap)
    (hopen : ∀ i, m.transparent i = true) (hr : 1 ≤ radius)
    (hW : 2 ≤ m.width) (hH : 2 ≤ m.height)
    (h : m.calculate_fov x y radius = Except.ok m') :
    ∀ a b : Int, 0 ≤ a → a < m.width → 0 ≤ b → b < m.height →
      (m'.vision (a + b * m.width) = true ↔
        (a - x) ^ 2 + (b - y) ^ 2 ≤ radius ^ 2) := by
  unfold FovMap.calculate_fov at h
  split at h
  · exact absurd h (by simp)
  · rename_i v heq
    rw [← Except.ok.inj h]
    dsimp only
    intro a b ha haW hb hbH
    constructor
    · intro hvis
      obtain ⟨⟨hx0, hxW, hy0, hyH⟩, hchar⟩ :=
        calcFovVision_char m.transparent m.width m.height x y radius v hr heq
      rcases hchar _ hvis with hio | hwall | ⟨p, hp0, hpW, hp1, hpH, hpi, hpd⟩
      · obtain ⟨rfl, rfl⟩ := flatIndex_inj ha haW hx0 hxW hio
        have : (0 : Int) ≤ radius ^ 2 := by positivity
        simpa using this
      · rw [hopen _] at hwall
        cases hwall
      · obtain ⟨h1, h2⟩ := flatIndex_inj hp0 hpW ha haW hpi
        rw [h1, h2] at hpd
        exact hpd
    · intro hdisc
      exact calcFovVision_covers m.transparent m.width m.height x y radius v
        hopen hr hW hH heq a b ha haW hb hbH hdisc

/-- Witness for C3: after `fov10.calculate_fov 5 5 2`, the cell `(5, 7)`
at squared distance `4 ≤ 2²` from the origin is indeed visible. -/
theorem c3_open_grid_visible_set_witness :
    fov10At552.vision (5 + 7 * 10) = true :=
  (c3_open_grid_visible_set fov10 5 5 2 fov10At552 (fun _ => rfl) (by norm_num)
    (by decide) (by decide)
    (calculate_fov_ok fov10 5 5 2 vision552 (Option.some_get _).symm)
    5 7 (by decide) (by decide) (by decide) (by decide)).mpr (by decide)

end FieldOfVision
